import Mathlib

set_option maxHeartbeats 1000000

/-!
Verification of the mdbook-quiz preprocessor (`src/processor.rs`).

The development shallowly embeds the processor:

* the directive regex `^\x7b\x7b#quiz ([^\x7d]+)\x7d\x7d$` (`QUIZ_REGEX`) as
  `quizRegexCaptures`;
* Rust `Path` operations (`file_stem`, `file_name`, `join`) as `fileStem`,
  `fileName`, `joinPath` on slash-separated strings;
* the TOML value universe that the claims range over (strings, integers,
  floats, booleans, arrays, tables) as `TomlValue`, with floats represented by
  the decimal digit sequences that the float printer emits;
* `serde_json::to_string` on such a value as `jsonEncode`, and
  `serde_json::from_str` (on whitespace-free input, which is all the encoder
  produces) as `jsonDecode`;
* `html_escape::encode_double_quoted_attribute` as `htmlEscapeDQ`, and the
  corresponding entity decoder as `htmlUnescape`;
* `process_quiz`, `process_chapter` and the config resolution in `run` as
  `processQuiz`, `processChapterApply` and `resolveConfig`, with the file
  system, the TOML parser and the pulldown-cmark event codec passed in as
  function parameters (they are external to the crate's own code).
-/

/-! ### Directive matcher (`QUIZ_REGEX`, processor.rs lines 20-22) -/

/-- The eight leading characters `\x7b\x7b#quiz ` of the directive pattern. -/
def quizMarkerPre : List Char := ['\x7b', '\x7b', '#', 'q', 'u', 'i', 'z', ' ']

/-- Core of `QUIZ_REGEX.captures`: the regex `^\x7b\x7b#quiz ([^\x7d]+)\x7d\x7d$`
is anchored at both ends, and its capture group is a nonempty run of
non-`\x7d` characters, so any match consists of the literal marker, the maximal
run of non-`\x7d` characters, and then exactly the two closing braces. -/
def quizCapturesL (cs : List Char) : Option (List Char) :=
  if cs.take 8 = quizMarkerPre then
    let rest := cs.drop 8
    let arg := rest.takeWhile (fun c => c ≠ '\x7d')
    let tl := rest.dropWhile (fun c => c ≠ '\x7d')
    if arg ≠ [] ∧ tl = ['\x7d', '\x7d'] then some arg else none
  else none

/-- String-level directive matcher: `QUIZ_REGEX.captures(text)` together with
the extraction of capture group 1 (processor.rs line 87-90). -/
def quizRegexCaptures (s : String) : Option String :=
  (quizCapturesL s.data).map String.mk

/-! ### Path model (Rust `std::path` on Unix, as used by `process_quiz`) -/

/-- Split a character list at `/` separators. -/
def splitSlash : List Char → List (List Char)
  | [] => [[]]
  | c :: rest =>
    let r := splitSlash rest
    if c = '/' then [] :: r
    else
      match r with
      | [] => [[c]]
      | g :: gs => (c :: g) :: gs

/-- Normalized path components of a Rust `Path`: empty pieces (from repeated
or trailing separators, or a leading root `/`) and `.` pieces are dropped,
while `..` is kept as a component. -/
def pathComponents (p : String) : List (List Char) :=
  (splitSlash p.data).filter (fun g => if g = [] then false else if g = ['.'] then false else true)

/-- Rust `Path::file_name`: the last normalized component, unless the path
ends in `..` (or has no components at all). -/
def fileName (p : String) : Option String :=
  match (pathComponents p).getLast? with
  | some g => if g = ['.', '.'] then none else some (String.mk g)
  | none => none

/-- The stem of a file name: everything before the last `.`, except that a
name without a dot, or whose only dot is its first character, is its own
stem (Rust `split_file_at_dot` semantics). -/
def stemOfName (g : List Char) : List Char :=
  let afterDot := g.reverse.takeWhile (fun c => c ≠ '.')
  if afterDot.length = g.length then g
  else if afterDot.length + 1 = g.length then g
  else g.take (g.length - afterDot.length - 1)

/-- Rust `Path::file_stem` composed with `to_string_lossy` (processor.rs
line 37); lossless here because the model's paths are already strings. -/
def fileStem (p : String) : Option String :=
  (fileName p).map (fun n => String.mk (stemOfName n.data))

/-- Rust `Path::join` (processor.rs line 36): an absolute right operand
replaces the base; otherwise the two are glued with a separator. -/
def joinPath (base rel : String) : String :=
  if rel.data.head? = some '/' then rel
  else if base = "" then rel
  else base ++ "/" ++ rel

/-! ### HTML attribute escaping (`html_escape::encode_double_quoted_attribute`) -/

/-- Per-character escaping for a double-quoted HTML attribute: the crate
replaces `&` by `&amp;` and `"` by `&quot;` and leaves every other character
alone. -/
def escAttrChar (c : Char) : List Char :=
  if c = '&' then ['&', 'a', 'm', 'p', ';']
  else if c = '"' then ['&', 'q', 'u', 'o', 't', ';']
  else [c]

/-- The attribute escaper applied to a whole string. -/
def htmlEscapeDQ (s : String) : String :=
  String.mk (s.data.flatMap escAttrChar)

/-- Entity decoding for double-quoted attribute values: scans left to right
and folds `&amp;` back to `&` and `&quot;` back to `"`; this is the inverse
direction of the escaping actually emitted into the placeholder. -/
def htmlUnescapeL : List Char → List Char
  | [] => []
  | c :: rest =>
    if c = '&' then
      if rest.take 4 = ['a', 'm', 'p', ';'] then '&' :: htmlUnescapeL (rest.drop 4)
      else if rest.take 5 = ['q', 'u', 'o', 't', ';'] then '"' :: htmlUnescapeL (rest.drop 5)
      else c :: htmlUnescapeL rest
    else c :: htmlUnescapeL rest
termination_by l => l.length
decreasing_by
  all_goals simp [List.length_drop]
  all_goals omega

/-- String-level attribute entity decoder. -/
def htmlUnescape (s : String) : String :=
  String.mk (htmlUnescapeL s.data)

/-! ### The TOML value universe of the claims

`toml::Value` restricted to the kinds of values named by the specification:
string, integer, float and boolean scalars, arrays, and tables. A float is
represented by the decimal notation that the serializer (ryu, via serde_json)
prints for it: a sign, the integer-part digits, the fraction digits (possibly
none) and an optional decimal exponent, each digit stored as a `Nat`. -/

inductive TomlValue where
  | vstr (s : String)
  | vint (n : Int)
  | vfloat (neg : Bool) (ip : List Nat) (fp : List Nat) (ex : Option (Bool × List Nat))
  | vbool (b : Bool)
  | varr (xs : List TomlValue)
  | vtable (kvs : List (String × TomlValue))

/-- Digits are decimal digits. -/
def wfDigits (ds : List Nat) : Bool := ds.all (fun d => d < 10)

/-- Well-formedness of a float representation: the integer part is a nonempty
digit run with no redundant leading zero, the fraction and exponent hold
decimal digits, the exponent digit run (when present) is nonempty, and at
least one of fraction and exponent is present (otherwise the printed form
would be an integer literal). -/
def wfFloatRep (ip fp : List Nat) (ex : Option (Bool × List Nat)) : Bool :=
  (!ip.isEmpty) && wfDigits ip
    && (match ip with
        | 0 :: ds => ds.isEmpty
        | _ => true)
    && wfDigits fp
    && (!fp.isEmpty || ex.isSome)
    && (match ex with
        | some (_, eds) => (!eds.isEmpty) && wfDigits eds
        | none => true)

/-- Keys of a table are pairwise distinct. -/
def keysDistinct : List (String × TomlValue) → Bool
  | [] => true
  | kv :: rest => (!(rest.any (fun kv2 => kv2.1 == kv.1))) && keysDistinct rest

mutual

/-- A value made only of the supported kinds, with well-formed float
representations and duplicate-free table keys throughout. -/
def wfValue : TomlValue → Bool
  | .vstr _ => true
  | .vint _ => true
  | .vfloat _ ip fp ex => wfFloatRep ip fp ex
  | .vbool _ => true
  | .varr xs => wfItems xs
  | .vtable kvs => keysDistinct kvs && wfKVs kvs

/-- All elements of an array are well-formed. -/
def wfItems : List TomlValue → Bool
  | [] => true
  | x :: xs => wfValue x && wfItems xs

/-- All values of a table are well-formed. -/
def wfKVs : List (String × TomlValue) → Bool
  | [] => true
  | kv :: kvs => wfValue kv.2 && wfKVs kvs

end

/-! ### JSON encoding (`serde_json::to_string` on a `toml::Value`)

The encoder is compact: no whitespace, `"k":v` members, `,` separators.
Strings escape `"`, `\` and the control characters below 0x20 exactly as
serde_json does (`\b \t \n \f \r`, else `\u00XX` with lowercase hex); all
other characters pass through verbatim. -/

/-- The decimal digit character for `d < 10` (and `'9'` above, never used). -/
def digitChar (d : Nat) : Char :=
  match d with
  | 0 => '0' | 1 => '1' | 2 => '2' | 3 => '3' | 4 => '4'
  | 5 => '5' | 6 => '6' | 7 => '7' | 8 => '8' | _ => '9'

/-- Decimal digits of a natural number, most significant first. -/
def natDigits (n : Nat) : List Nat :=
  if n < 10 then [n] else natDigits (n / 10) ++ [n % 10]
termination_by n
decreasing_by omega

/-- The number a digit list denotes (most significant first). -/
def digitsVal (ds : List Nat) : Nat :=
  ds.foldl (fun a d => a * 10 + d) 0

/-- The serde_json rendering of an `i64`: optional minus sign and decimal
digits. -/
def intChars (n : Int) : List Char :=
  if n < 0 then '-' :: (natDigits n.natAbs).map digitChar
  else (natDigits n.natAbs).map digitChar

/-- The `.`-prefixed fraction digits of a float rendering (empty when the
fraction is absent). -/
def fracChars (fp : List Nat) : List Char :=
  if fp.isEmpty then [] else '.' :: fp.map digitChar

/-- The `e`-prefixed exponent of a float rendering (ryu never prints a `+`
exponent sign). -/
def expChars (ex : Option (Bool × List Nat)) : List Char :=
  match ex with
  | none => []
  | some (es, eds) => 'e' :: ((if es then ['-'] else []) ++ eds.map digitChar)

/-- The rendering of a float from its decimal representation: sign, integer
digits, fraction, exponent. -/
def floatChars (neg : Bool) (ip fp : List Nat) (ex : Option (Bool × List Nat)) : List Char :=
  (if neg then ['-'] else []) ++ ip.map digitChar ++ fracChars fp ++ expChars ex

/-- The lowercase hexadecimal digit for `m < 16` (and `'f'` above). -/
def hexDigit (m : Nat) : Char :=
  match m with
  | 0 => '0' | 1 => '1' | 2 => '2' | 3 => '3' | 4 => '4'
  | 5 => '5' | 6 => '6' | 7 => '7' | 8 => '8' | 9 => '9'
  | 10 => 'a' | 11 => 'b' | 12 => 'c' | 13 => 'd' | 14 => 'e' | _ => 'f'

/-- serde_json's escape of one character inside a JSON string literal. -/
def jsonEscapeChar (c : Char) : List Char :=
  if c = '"' then ['\\', '"']
  else if c = '\\' then ['\\', '\\']
  else if 32 ≤ c.toNat then [c]
  else if c.toNat = 8 then ['\\', 'b']
  else if c.toNat = 9 then ['\\', 't']
  else if c.toNat = 10 then ['\\', 'n']
  else if c.toNat = 12 then ['\\', 'f']
  else if c.toNat = 13 then ['\\', 'r']
  else ['\\', 'u', '0', '0', hexDigit (c.toNat / 16), hexDigit (c.toNat % 16)]

/-- A JSON string literal: quote, escaped body, quote. -/
def strChars (s : String) : List Char :=
  '"' :: (s.data.flatMap jsonEscapeChar ++ ['"'])

mutual

/-- The characters `serde_json::to_string` produces for a value. -/
def jsonEncodeL : TomlValue → List Char
  | .vstr s => strChars s
  | .vint n => intChars n
  | .vfloat neg ip fp ex => floatChars neg ip fp ex
  | .vbool true => ['t', 'r', 'u', 'e']
  | .vbool false => ['f', 'a', 'l', 's', 'e']
  | .varr [] => ['[', ']']
  | .varr (x :: xs) => '[' :: (jsonEncodeL x ++ encMoreItems xs)
  | .vtable [] => ['\x7b', '\x7d']
  | .vtable (kv :: kvs) => '\x7b' :: (encKV kv ++ encMoreKVs kvs)

/-- The remaining elements of an array, each preceded by `,`, then `]`. -/
def encMoreItems : List TomlValue → List Char
  | [] => [']']
  | x :: xs => ',' :: (jsonEncodeL x ++ encMoreItems xs)

/-- One object member `"k":v`. -/
def encKV : String × TomlValue → List Char
  | (k, v) => strChars k ++ (':' :: jsonEncodeL v)

/-- The remaining members of an object, each preceded by `,`, then `\x7d`. -/
def encMoreKVs : List (String × TomlValue) → List Char
  | [] => ['\x7d']
  | kv :: kvs => ',' :: (encKV kv ++ encMoreKVs kvs)

end

/-- `serde_json::to_string(&content)` (processor.rs line 42). -/
def jsonEncode (v : TomlValue) : String :=
  String.mk (jsonEncodeL v)

/-! ### JSON decoding (`serde_json::from_str` on the encoder's output
language: strict JSON with no interleaved whitespace, which is the only shape
the compact encoder emits) -/

/-- The value of a hexadecimal digit character. -/
def parseHex (c : Char) : Option Nat :=
  if '0' ≤ c ∧ c ≤ '9' then some (c.toNat - 48)
  else if 'a' ≤ c ∧ c ≤ 'f' then some (c.toNat - 87)
  else if 'A' ≤ c ∧ c ≤ 'F' then some (c.toNat - 55)
  else none

/-- The character a single-letter JSON escape denotes. -/
def unescapeChar (e : Char) : Option Char :=
  if e = '"' then some '"'
  else if e = '\\' then some '\\'
  else if e = '/' then some '/'
  else if e = 'b' then some '\x08'
  else if e = 'f' then some '\x0c'
  else if e = 'n' then some '\n'
  else if e = 'r' then some '\r'
  else if e = 't' then some '\t'
  else none

/-- Parse the body of a JSON string literal after its opening quote, up to and
including the closing quote; returns the decoded characters and the input
after the closing quote. Unescaped control characters are rejected, `\uXXXX`
must denote a Unicode scalar value. -/
def parseStringBody : List Char → Option (List Char × List Char)
  | [] => none
  | c :: rest =>
    if c = '"' then some ([], rest)
    else if c = '\\' then
      match rest with
      | [] => none
      | e :: r2 =>
        if e = 'u' then
          match r2 with
          | h1 :: h2 :: h3 :: h4 :: r3 =>
            match parseHex h1, parseHex h2, parseHex h3, parseHex h4 with
            | some a, some b, some g, some d =>
              let n := ((a * 16 + b) * 16 + g) * 16 + d
              if n < 55296 ∨ (57343 < n ∧ n < 1114112) then
                match parseStringBody r3 with
                | some (s, r) => some (Char.ofNat n :: s, r)
                | none => none
              else none
            | _, _, _, _ => none
          | _ => none
        else
          match unescapeChar e with
          | some u =>
            match parseStringBody r2 with
            | some (s, r) => some (u :: s, r)
            | none => none
          | none => none
    else if c.toNat < 32 then none
    else
      match parseStringBody rest with
      | some (s, r) => some (c :: s, r)
      | none => none

/-- Take the maximal run of decimal digit characters off the front. -/
def parseDigits : List Char → List Nat × List Char
  | [] => ([], [])
  | c :: rest =>
    if '0' ≤ c ∧ c ≤ '9' then
      match parseDigits rest with
      | (ds, r) => ((c.toNat - 48) :: ds, r)
    else ([], c :: rest)

/-- The JSON integer-part grammar: a single `0`, or a nonzero digit followed
by any digits (a leading zero never absorbs further digits). -/
def parseIntPart (cs : List Char) : Option (List Nat × List Char) :=
  match cs with
  | [] => none
  | c :: rest =>
    if c = '0' then some ([0], rest)
    else
      match parseDigits (c :: rest) with
      | ([], _) => none
      | (ds, r) => some (ds, r)

/-- Assemble the parsed number: without fraction and exponent it is an
integer (serde_json `visit_i64`), otherwise a float (`visit_f64`). -/
def mkNumber (neg : Bool) (ip fp : List Nat) (ex : Option (Bool × List Nat)) : TomlValue :=
  if fp.isEmpty ∧ ex.isNone then
    .vint (if neg then -(digitsVal ip : Int) else (digitsVal ip : Int))
  else .vfloat neg ip fp ex

/-- Parse the optional exponent sign and its mandatory digits. -/
def parseExpDigits (neg : Bool) (ip fp : List Nat) (cs : List Char) :
    Option (TomlValue × List Char) :=
  match cs with
  | [] => none
  | c :: r =>
    if c = '+' then
      (match parseDigits r with
       | ([], _) => none
       | (eds, r3) => some (mkNumber neg ip fp (some (false, eds)), r3))
    else if c = '-' then
      (match parseDigits r with
       | ([], _) => none
       | (eds, r3) => some (mkNumber neg ip fp (some (true, eds)), r3))
    else
      match parseDigits (c :: r) with
      | ([], _) => none
      | (eds, r3) => some (mkNumber neg ip fp (some (false, eds)), r3)

/-- After the integer and fraction parts: an `e`/`E` starts an exponent,
anything else ends the number. -/
def finishNumber (neg : Bool) (ip fp : List Nat) (cs : List Char) :
    Option (TomlValue × List Char) :=
  match cs with
  | [] => some (mkNumber neg ip fp none, [])
  | c :: rest =>
    if c = 'e' ∨ c = 'E' then parseExpDigits neg ip fp rest
    else some (mkNumber neg ip fp none, c :: rest)

/-- A number after its optional minus sign: integer part, then an optional
`.`-fraction with mandatory digits, then an optional exponent. -/
def parseNumMag (neg : Bool) (cs : List Char) : Option (TomlValue × List Char) :=
  match parseIntPart cs with
  | none => none
  | some (ip, r1) =>
    match r1 with
    | [] => finishNumber neg ip [] []
    | c :: r2 =>
      if c = '.' then
        (match parseDigits r2 with
         | ([], _) => none
         | (fp, r3) => finishNumber neg ip fp r3)
      else finishNumber neg ip [] (c :: r2)

/-- A JSON number token. -/
def parseNumber (cs : List Char) : Option (TomlValue × List Char) :=
  match cs with
  | [] => none
  | c :: r => if c = '-' then parseNumMag true r else parseNumMag false (c :: r)

mutual

/-- One JSON value, by fuel-bounded recursive descent over the
whitespace-free grammar; produces the value and the unconsumed input. -/
def parseValue : Nat → List Char → Option (TomlValue × List Char)
  | 0, _ => none
  | fuel + 1, cs =>
    match cs with
    | [] => none
    | c :: rest =>
      if c = '"' then
        match parseStringBody rest with
        | some (s, r) => some (.vstr (String.mk s), r)
        | none => none
      else if c = 't' then
        (if rest.take 3 = ['r', 'u', 'e'] then some (.vbool true, rest.drop 3) else none)
      else if c = 'f' then
        (if rest.take 4 = ['a', 'l', 's', 'e'] then some (.vbool false, rest.drop 4) else none)
      else if c = '[' then
        match rest with
        | [] => none
        | c2 :: r2 =>
          if c2 = ']' then some (.varr [], r2)
          else
            match parseArrItems fuel (c2 :: r2) with
            | some (xs, r) => some (.varr xs, r)
            | none => none
      else if c = '\x7b' then
        match rest with
        | [] => none
        | c2 :: r2 =>
          if c2 = '\x7d' then some (.vtable [], r2)
          else
            match parseObjItems fuel (c2 :: r2) with
            | some (kvs, r) => some (.vtable kvs, r)
            | none => none
      else parseNumber (c :: rest)

/-- One or more comma-separated array elements followed by `]`. -/
def parseArrItems : Nat → List Char → Option (List TomlValue × List Char)
  | 0, _ => none
  | fuel + 1, cs =>
    match parseValue fuel cs with
    | none => none
    | some (v, r) =>
      match r with
      | ',' :: r2 =>
        (match parseArrItems fuel r2 with
         | some (vs, r3) => some (v :: vs, r3)
         | none => none)
      | ']' :: r2 => some ([v], r2)
      | _ => none

/-- One or more comma-separated `"k":v` members followed by `\x7d`. -/
def parseObjItems : Nat → List Char → Option (List (String × TomlValue) × List Char)
  | 0, _ => none
  | fuel + 1, cs =>
    match cs with
    | '"' :: r0 =>
      (match parseStringBody r0 with
       | none => none
       | some (k, r1) =>
         match r1 with
         | ':' :: r2 =>
           (match parseValue fuel r2 with
            | none => none
            | some (v, r3) =>
              match r3 with
              | ',' :: r4 =>
                (match parseObjItems fuel r4 with
                 | some (kvs, r5) => some ((String.mk k, v) :: kvs, r5)
                 | none => none)
              | '\x7d' :: r4 => some ([(String.mk k, v)], r4)
              | _ => none)
         | _ => none)
    | _ => none

end

/-- `serde_json::from_str::<toml::Value>` on the encoder's output language:
parse one value and insist the input is fully consumed. The fuel
`length + 1` suffices for any parse since every recursion step consumes at
least one character. -/
def jsonDecode (s : String) : Option TomlValue :=
  match parseValue (s.data.length + 1) s.data with
  | some (v, []) => some v
  | _ => none

/-- The input does not begin with a decimal digit character. -/
def noDigitStart (cs : List Char) : Prop :=
  ∀ c, cs.head? = some c → ¬('0' ≤ c ∧ c ≤ '9')

/-- The input cannot extend a JSON number: it begins with no digit and none
of `.`, `e`, `E`. Every continuation the encoder produces after a complete
value (`,`, `]`, `\x7d`, `:` or end of input) qualifies. -/
def numBoundary (cs : List Char) : Prop :=
  ∀ c, cs.head? = some c → ¬('0' ≤ c ∧ c ≤ '9') ∧ c ≠ '.' ∧ c ≠ 'e' ∧ c ≠ 'E'

/-! ### The processor model (`QuizProcessor`) -/

/-- The two optional configuration fields read from the preprocessor's TOML
table (processor.rs lines 15-18). -/
structure QuizConfig where
  log_endpoint : Option String
  fullscreen : Option Bool
deriving DecidableEq

/-- How one directive expansion can fail: the definition file was unreadable
(`std::fs::read_to_string` error, line 40), its content was not valid TOML
(line 41), or the `file_stem().unwrap()` on line 37 panicked. -/
inductive ProcError where
  | ioError (path : String)
  | formatError
  | panicked
deriving DecidableEq

/-- The attribute list accumulated by the `add_data` closure, in call order
(processor.rs lines 46-60): values are stored already escaped. -/
def quizAttrs (config : QuizConfig) (quizName contentJson : String) : List (String × String) :=
  [("quiz-name", htmlEscapeDQ quizName), ("quiz-questions", htmlEscapeDQ contentJson)]
    ++ (match config.log_endpoint with
        | some ep => [("quiz-log-endpoint", htmlEscapeDQ ep)]
        | none => [])
    ++ (match config.fullscreen with
        | some _ => [("quiz-fullscreen", htmlEscapeDQ (""))]
        | none => [])

/-- One ` data-k="v" ` fragment as pushed by `add_data`. -/
def attrText (kv : String × String) : String :=
  " data-" ++ kv.1 ++ "=\"" ++ kv.2 ++ "\" "

/-- The placeholder markup built by `process_quiz` (lines 44-63). -/
def quizHtml (config : QuizConfig) (quizName contentJson : String) : String :=
  "<div class=\"quiz-placeholder\""
    ++ String.join ((quizAttrs config quizName contentJson).map attrText)
    ++ "></div>"

/-- First/second component lookup in an attribute list. -/
def getAttr (k : String) : List (String × String) → Option String
  | [] => none
  | kv :: rest => if kv.1 = k then some kv.2 else getAttr k rest

/-! ### Markdown events and the chapter rewrite (`process_chapter`)

The pulldown-cmark event stream is abstracted to the three shapes the rewrite
distinguishes: `Event::Text`, the `Event::Html` it produces, and every other
event (`other`, indexed by an opaque tag). The markdown parser and the cmark
serializer are external library code and enter the model as the function
parameters `parseMd` and `render`. -/

inductive Event where
  | text (s : String)
  | html (s : String)
  | other (tag : Nat)
deriving DecidableEq

/-- A text event whose whole content matches the directive regex. -/
def eventMatches (e : Event) : Bool :=
  match e with
  | .text t => (quizRegexCaptures t).isSome
  | _ => false

/-- One document unit: its source path and its markdown content. -/
structure Chapter where
  path : String
  content : String
deriving DecidableEq

/-! `process_quiz` (processor.rs lines 29-66). The file system appears as
`fs : String → Option String` (`std::fs::read_to_string`, `none` = IO error)
and the TOML parser as `parseToml : String → Option TomlValue`
(`str::parse::<toml::Value>`, `none` = format error); `jsonEncode` below is
`serde_json::to_string`, which cannot fail on this value universe. Note the
source computes `file_stem().unwrap()` *before* reading the file, and that
unwrap panics when the stem is absent. -/

/-- The body of `process_quiz`: quiz name from the path's stem (panics when
absent), then read, then TOML-parse, then JSON-encode into the placeholder. -/
def processQuiz (fs : String → Option String) (parseToml : String → Option TomlValue)
    (config : QuizConfig) (chapterDir quizPath : String) :
    Except ProcError String :=
  match fileStem quizPath with
  | none => .error .panicked
  | some quizName =>
    match fs (joinPath chapterDir quizPath) with
    | none => .error (.ioError (joinPath chapterDir quizPath))
    | some contentToml =>
      match parseToml contentToml with
      | none => .error .formatError
      | some content => .ok (quizHtml config quizName (jsonEncode content))

/-- The rewrite of one event (the match arms in processor.rs lines 84-96):
a text event matching the directive becomes a raw HTML event holding the
expansion; everything else passes through. -/
def processEventStep (pq : String → Except ProcError String) (e : Event) :
    Except ProcError Event :=
  match e with
  | .text t =>
    match quizRegexCaptures t with
    | some quizPath =>
      match pq quizPath with
      | .ok h => .ok (.html h)
      | .error err => .error err
    | none => .ok e
  | _ => .ok e

/-- The event loop of `process_chapter` (lines 82-98): events are rewritten
in order and the first failing expansion aborts the whole pass. -/
def processEvents (pq : String → Except ProcError String) :
    List Event → Except ProcError (List Event)
  | [] => .ok []
  | e :: es =>
    match processEventStep pq e with
    | .error err => .error err
    | .ok e2 =>
      match processEvents pq es with
      | .error err => .error err
      | .ok es2 => .ok (e2 :: es2)

/-- `process_chapter` on a chapter's content, parameterized by the external
markdown codec: parse the content, rewrite the events, re-serialize. -/
def processContent (config : QuizConfig) (fs : String → Option String)
    (parseToml : String → Option TomlValue)
    (parseMd : String → List Event) (render : List Event → String)
    (chapterDir content : String) : Except ProcError String :=
  match processEvents (processQuiz fs parseToml config chapterDir) (parseMd content) with
  | .error err => .error err
  | .ok evs => .ok (render evs)

/-- The `&mut Chapter` shape of `process_chapter`: the content is overwritten
only on success; on an error the chapter is returned untouched together with
the error (the assignment on line 100 is never reached). -/
def processChapterApply (config : QuizConfig) (fs : String → Option String)
    (parseToml : String → Option TomlValue)
    (parseMd : String → List Event) (render : List Event → String)
    (chapterDir : String) (ch : Chapter) : Chapter × Option ProcError :=
  match processContent config fs parseToml parseMd render chapterDir ch.content with
  | .ok c => ({ ch with content := c }, none)
  | .error err => (ch, some err)

/-! ### Config resolution in `run` (processor.rs lines 113-122) -/

/-- `toml::Value::as_str`: a string value and nothing else. -/
def tomlAsStr : TomlValue → Option String
  | .vstr s => some s
  | _ => none

/-- `toml::Value::as_bool`: a boolean value and nothing else. -/
def tomlAsBool : TomlValue → Option Bool
  | .vbool b => some b
  | _ => none

/-- Outcome of building `QuizConfig` in `run`: either the config record, or a
process-aborting panic from one of the two `unwrap()` calls on lines 118
and 121. -/
inductive ConfigResolution where
  | ok (c : QuizConfig)
  | panicked
deriving DecidableEq

/-- Key lookup in the preprocessor's TOML table. -/
def tblGet (k : String) : List (String × TomlValue) → Option TomlValue
  | [] => none
  | kv :: rest => if kv.1 = k then some kv.2 else tblGet k rest

/-- The `fullscreen` half of the config construction: a present non-boolean
value hits `value.as_bool().unwrap()` and panics. -/
def resolveFullscreen (tbl : List (String × TomlValue)) (le : Option String) :
    ConfigResolution :=
  match tblGet ("fullscreen") tbl with
  | some v =>
    match tomlAsBool v with
    | none => .panicked
    | some b => .ok ⟨le, some b⟩
  | none => .ok ⟨le, none⟩

/-- The config construction in `run`: a present non-string `log-endpoint`
hits `value.as_str().unwrap()` and panics, then the `fullscreen` key is
resolved the same way. -/
def resolveConfig (tbl : List (String × TomlValue)) : ConfigResolution :=
  match tblGet ("log-endpoint") tbl with
  | some v =>
    match tomlAsStr v with
    | none => .panicked
    | some s => resolveFullscreen tbl (some s)
  | none => resolveFullscreen tbl none

/-! ## Helper lemmas -/

/-- Scanning `takeWhile` across a block that wholly satisfies the predicate
stops exactly at the first failing element. -/
theorem takeWhile_append_block {α : Type} (p : α → Bool) (a : List α) (b : α) (t : List α)
    (ha : ∀ c ∈ a, p c = true) (hb : p b = false) :
    (a ++ b :: t).takeWhile p = a := by
  induction a with
  | nil => simp [List.takeWhile, hb]
  | cons x xs ih =>
    have hx : p x = true := ha x (by simp)
    simp only [List.cons_append, List.takeWhile, hx]
    exact congrArg (fun l => x :: l) (ih (fun c hc => ha c (by simp [hc])))

/-- The `dropWhile` companion of `takeWhile_append_block`. -/
theorem dropWhile_append_block {α : Type} (p : α → Bool) (a : List α) (b : α) (t : List α)
    (ha : ∀ c ∈ a, p c = true) (hb : p b = false) :
    (a ++ b :: t).dropWhile p = b :: t := by
  induction a with
  | nil => simp [List.dropWhile, hb]
  | cons x xs ih =>
    have hx : p x = true := ha x (by simp)
    simp only [List.cons_append, List.dropWhile, hx]
    exact ih (fun c hc => ha c (by simp [hc]))

/-- Characterization of the list-level directive matcher: it yields `a`
exactly when the input is the marker, a nonempty brace-free argument, and the
two closing braces. -/
theorem quizCapturesL_some_iff (cs a : List Char) :
    quizCapturesL cs = some a ↔
      cs = quizMarkerPre ++ a ++ ['\x7d', '\x7d'] ∧ a ≠ [] ∧ ∀ c ∈ a, c ≠ '\x7d' := by
  constructor
  · intro h
    simp only [quizCapturesL] at h
    by_cases h1 : cs.take 8 = quizMarkerPre
    · rw [if_pos h1] at h
      by_cases h2 : (cs.drop 8).takeWhile (fun c => c ≠ '\x7d') ≠ []
          ∧ (cs.drop 8).dropWhile (fun c => c ≠ '\x7d') = ['\x7d', '\x7d']
      · rw [if_pos h2] at h
        have harg : (cs.drop 8).takeWhile (fun c => c ≠ '\x7d') = a := Option.some.inj h
        refine ⟨?_, ?_, ?_⟩
        · have hsplit : cs.take 8 ++ cs.drop 8 = cs := List.take_append_drop 8 cs
          have hrest : cs.drop 8 = a ++ ['\x7d', '\x7d'] := by
            have hh := List.takeWhile_append_dropWhile
              (fun c => decide (c ≠ '\x7d')) (cs.drop 8)
            rw [harg, h2.2] at hh
            exact hh.symm
          rw [← hsplit, h1, hrest, List.append_assoc]
        · exact harg ▸ h2.1
        · intro c hc
          have hmem := List.mem_takeWhile_imp (harg ▸ hc)
          exact of_decide_eq_true hmem
      · rw [if_neg h2] at h
        exact absurd h (by simp)
    · rw [if_neg h1] at h
      exact absurd h (by simp)
  · rintro ⟨rfl, hne, hall⟩
    have hlen : quizMarkerPre.length = 8 := rfl
    have hassoc : quizMarkerPre ++ a ++ ['\x7d', '\x7d']
        = quizMarkerPre ++ (a ++ ['\x7d', '\x7d']) := List.append_assoc ..
    have htake : (quizMarkerPre ++ a ++ ['\x7d', '\x7d']).take 8 = quizMarkerPre := by
      rw [hassoc]; exact List.take_left' hlen
    have hdrop : (quizMarkerPre ++ a ++ ['\x7d', '\x7d']).drop 8 = a ++ ['\x7d', '\x7d'] := by
      rw [hassoc]; exact List.drop_left' hlen
    have hpa : ∀ c ∈ a, (fun c => decide (c ≠ '\x7d')) c = true :=
      fun c hc => decide_eq_true (hall c hc)
    have htw : (a ++ ['\x7d', '\x7d']).takeWhile (fun c => c ≠ '\x7d') = a :=
      takeWhile_append_block _ a '\x7d' ['\x7d'] hpa (by decide)
    have hdw : (a ++ ['\x7d', '\x7d']).dropWhile (fun c => c ≠ '\x7d') = ['\x7d', '\x7d'] :=
      dropWhile_append_block _ a '\x7d' ['\x7d'] hpa (by decide)
    simp only [quizCapturesL, htake, hdrop, htw, hdw, eq_self_iff_true, if_true, and_true]
    rw [if_pos hne]

/-! ## C1: the directive matcher -/

/-- C1 counterexample: the string `\x7b\x7b#quiz \x7d\x7d` is exactly the
concatenation of the marker, an (empty) argument containing no `\x7d`, and the
closing braces, so the claim as stated demands a match — yet the regex's
`[^\x7d]+` requires a nonempty argument and the matcher returns no match. -/
theorem c1_empty_argument_cex :
    ("\x7b\x7b#quiz \x7d\x7d" = "\x7b\x7b#quiz " ++ "" ++ "\x7d\x7d"
      ∧ ∀ c ∈ ("" : String).data, c ≠ '\x7d')
    ∧ quizRegexCaptures ("\x7b\x7b#quiz \x7d\x7d") = none := by
  refine ⟨⟨rfl, by simp⟩, by decide⟩

/-- C1 (amended): the directive matcher is a pure total function returning the
argument `a` if and only if the input is exactly `\x7b\x7b#quiz ` ++ a ++
`\x7d\x7d` where `a` is nonempty and contains no `\x7d` character; on any
other string (in particular a directive with surrounding prose) it returns no
match. -/
theorem c1_directive_matcher_iff (s a : String) :
    quizRegexCaptures s = some a ↔
      s = "\x7b\x7b#quiz " ++ a ++ "\x7d\x7d" ∧ a ≠ "" ∧ ∀ c ∈ a.data, c ≠ '\x7d' := by
  rw [quizRegexCaptures, Option.map_eq_some']
  constructor
  · rintro ⟨l, hl, rfl⟩
    obtain ⟨hcs, hne, hall⟩ := (quizCapturesL_some_iff s.data l).mp hl
    refine ⟨?_, ?_, hall⟩
    · rw [String.ext_iff, String.data_append, String.data_append]
      exact hcs
    · intro h0
      apply hne
      rw [String.ext_iff] at h0
      exact h0
  · rintro ⟨hs, hne, hall⟩
    refine ⟨a.data, ?_, rfl⟩
    apply (quizCapturesL_some_iff s.data a.data).mpr
    refine ⟨?_, ?_, hall⟩
    · have hd := congrArg String.data hs
      rw [String.data_append, String.data_append] at hd
      exact hd
    · intro h0
      exact hne (String.ext h0)

/-! ## The attribute escaper and its inverse -/

/-- Decoding steps over an `&amp;` entity. -/
theorem htmlUnescapeL_amp (xs : List Char) :
    htmlUnescapeL ('&' :: ('a' :: 'm' :: 'p' :: ';' :: xs)) = '&' :: htmlUnescapeL xs := by
  rw [htmlUnescapeL]
  norm_num

/-- Decoding steps over an `&quot;` entity. -/
theorem htmlUnescapeL_quot (xs : List Char) :
    htmlUnescapeL ('&' :: ('q' :: 'u' :: 'o' :: 't' :: ';' :: xs)) = '"' :: htmlUnescapeL xs := by
  rw [htmlUnescapeL]
  have h4 : List.take 4 ('q' :: 'u' :: 'o' :: 't' :: ';' :: xs) = ['q', 'u', 'o', 't'] := rfl
  have h5 : List.take 5 ('q' :: 'u' :: 'o' :: 't' :: ';' :: xs) = ['q', 'u', 'o', 't', ';'] := rfl
  have hd5 : List.drop 5 ('q' :: 'u' :: 'o' :: 't' :: ';' :: xs) = xs := rfl
  rw [h4, h5, hd5, if_pos rfl, if_neg (by decide), if_pos rfl]

/-- Decoding passes over any non-`&` character. -/
theorem htmlUnescapeL_other (c : Char) (h : c ≠ '&') (xs : List Char) :
    htmlUnescapeL (c :: xs) = c :: htmlUnescapeL xs := by
  rw [htmlUnescapeL, if_neg h]

/-- Entity decoding inverts the per-character attribute escaping. -/
theorem htmlUnescapeL_escape (l : List Char) :
    htmlUnescapeL (l.flatMap escAttrChar) = l := by
  induction l with
  | nil => simp [htmlUnescapeL]
  | cons c xs ih =>
    rw [List.flatMap_cons]
    by_cases hamp : c = '&'
    · subst hamp
      have he : escAttrChar '&' = ['&', 'a', 'm', 'p', ';'] := rfl
      rw [he]
      simpa [htmlUnescapeL_amp] using congrArg (fun l => '&' :: l) ih
    · by_cases hq : c = '"'
      · subst hq
        have he : escAttrChar '"' = ['&', 'q', 'u', 'o', 't', ';'] := rfl
        rw [he]
        simpa [htmlUnescapeL_quot] using congrArg (fun l => '"' :: l) ih
      · have he : escAttrChar c = [c] := by rw [escAttrChar, if_neg hamp, if_neg hq]
        rw [he, List.singleton_append, htmlUnescapeL_other c hamp, ih]

/-- String-level escape/decode round trip. -/
theorem htmlUnescape_escape (s : String) : htmlUnescape (htmlEscapeDQ s) = s :=
  congrArg String.mk (htmlUnescapeL_escape s.data)

/-- The escaper's output never contains a double quote. -/
theorem htmlEscapeDQ_no_quote (s : String) : '"' ∉ (htmlEscapeDQ s).data := by
  intro hmem
  have hm : '"' ∈ s.data.flatMap escAttrChar := hmem
  obtain ⟨c, _, hc⟩ := List.mem_flatMap.mp hm
  rw [escAttrChar] at hc
  split_ifs at hc with h1 h2
  · simp at hc
  · simp at hc
  · rw [List.mem_singleton] at hc
    exact h2 hc.symm

/-! ## C3: attribute values are escaped and decodable -/

/-- C3: every attribute value emitted into the placeholder element is the
escaping of some original string; it therefore contains no unescaped (indeed
no) `"` character, and entity-decoding it recovers that original exactly. -/
theorem c3_placeholder_attrs_escaped (cfg : QuizConfig) (name json : String) :
    ∀ kv ∈ quizAttrs cfg name json,
      '"' ∉ kv.2.data ∧ ∃ w, kv.2 = htmlEscapeDQ w ∧ htmlUnescape kv.2 = w := by
  intro kv hkv
  have hesc : ∃ w, kv.2 = htmlEscapeDQ w := by
    rw [quizAttrs] at hkv
    rcases List.mem_append.mp hkv with h12 | hfs
    · rcases List.mem_append.mp h12 with hbase | hle
      · rcases List.mem_cons.mp hbase with rfl | hbase2
        · exact ⟨_, rfl⟩
        · rcases List.mem_cons.mp hbase2 with rfl | hnil
          · exact ⟨_, rfl⟩
          · exact absurd hnil (List.not_mem_nil _)
      · rcases hmle : cfg.log_endpoint with _ | ep <;> rw [hmle] at hle
        · exact absurd hle (List.not_mem_nil _)
        · rcases List.mem_singleton.mp hle with rfl
          exact ⟨_, rfl⟩
    · rcases hmfs : cfg.fullscreen with _ | b <;> rw [hmfs] at hfs
      · exact absurd hfs (List.not_mem_nil _)
      · rcases List.mem_singleton.mp hfs with rfl
        exact ⟨_, rfl⟩
  obtain ⟨w, hw⟩ := hesc
  refine ⟨?_, w, hw, ?_⟩
  · rw [hw]
    exact htmlEscapeDQ_no_quote w
  · rw [hw]
    exact htmlUnescape_escape w

/-- C3 witness: the quiz-name attribute built from a name holding a `"`. -/
theorem c3_witness :
    '"' ∉ (htmlEscapeDQ ("he\"llo")).data ∧
      ∃ w, htmlEscapeDQ ("he\"llo") = htmlEscapeDQ w
        ∧ htmlUnescape (htmlEscapeDQ ("he\"llo")) = w :=
  c3_placeholder_attrs_escaped ⟨none, none⟩ ("he\"llo") ("j")
    ("quiz-name", htmlEscapeDQ ("he\"llo")) (by simp [quizAttrs])

/-! ## C7: the fullscreen attribute tracks presence, not value -/

/-- C7: the `quiz-fullscreen` attribute (with empty value) is emitted exactly
when the `fullscreen` option is present in the configuration, whatever its
boolean value — an explicit `fullscreen = false` still emits it. -/
theorem c7_fullscreen_presence_iff (cfg : QuizConfig) (name json : String) :
    ("quiz-fullscreen", "") ∈ quizAttrs cfg name json ↔ cfg.fullscreen.isSome = true := by
  obtain ⟨le, fsc⟩ := cfg
  have hknm : ("quiz-fullscreen" : String) ≠ "quiz-name" := by decide
  have hkq : ("quiz-fullscreen" : String) ≠ "quiz-questions" := by decide
  have hkle : ("quiz-fullscreen" : String) ≠ "quiz-log-endpoint" := by decide
  have hee : htmlEscapeDQ ("") = "" := rfl
  rcases le with _ | ep <;> rcases fsc with _ | b <;>
    simp [quizAttrs, hee, Prod.ext_iff, hknm, hkq, hkle]

/-! ## C6: the quiz-name attribute is the file stem -/

/-- C6: for a directive whose path resolves to a readable, TOML-valid file,
`process_quiz` succeeds and the placeholder's quiz-name attribute is the
(escaped) base name of the referenced file with its extension stripped;
decoding the attribute yields that stem exactly. -/
theorem c6_quiz_name_is_stem (cfg : QuizConfig) (fsys : String → Option String)
    (parseToml : String → Option TomlValue) (dir qp stem c : String) (v : TomlValue)
    (hstem : fileStem qp = some stem)
    (hread : fsys (joinPath dir qp) = some c)
    (hparse : parseToml c = some v) :
    processQuiz fsys parseToml cfg dir qp = .ok (quizHtml cfg stem (jsonEncode v))
      ∧ getAttr ("quiz-name") (quizAttrs cfg stem (jsonEncode v))
          = some (htmlEscapeDQ stem)
      ∧ htmlUnescape (htmlEscapeDQ stem) = stem := by
  refine ⟨?_, ?_, htmlUnescape_escape stem⟩
  · simp only [processQuiz, hstem, hread, hparse]
  · rfl

/-- C6 witness: a concrete run on `geo.toml` produces quiz-name `geo`. -/
theorem c6_witness :
    processQuiz (fun _ => some ("x")) (fun _ => some (TomlValue.vbool true))
        ⟨none, some true⟩ ("book") ("geo.toml")
        = .ok (quizHtml ⟨none, some true⟩ ("geo") (jsonEncode (TomlValue.vbool true)))
      ∧ getAttr ("quiz-name")
            (quizAttrs ⟨none, some true⟩ ("geo") (jsonEncode (TomlValue.vbool true)))
          = some (htmlEscapeDQ ("geo"))
      ∧ htmlUnescape (htmlEscapeDQ ("geo")) = ("geo") :=
  c6_quiz_name_is_stem ⟨none, some true⟩ (fun _ => some ("x"))
    (fun _ => some (TomlValue.vbool true)) ("book") ("geo.toml") ("geo") ("x")
    (TomlValue.vbool true) (by decide) rfl rfl

/-! ## C9: malformed run configuration -/

/-- C9 counterexample: with `fullscreen` present as the string `"yes"`, the
config construction in `run` hits `value.as_bool().unwrap()` and panics — it
does not surface any catchable configuration error value. -/
theorem c9_malformed_config_cex :
    resolveConfig [("fullscreen", TomlValue.vstr ("yes"))] = ConfigResolution.panicked
      ∧ ∀ qc : QuizConfig,
          resolveConfig [("fullscreen", TomlValue.vstr ("yes"))] ≠ ConfigResolution.ok qc := by
  refine ⟨rfl, ?_⟩
  intro qc h
  exact ConfigResolution.noConfusion h

/-- C9 (amended): a malformed run configuration — a present `log-endpoint`
whose value is not a string, or a present `fullscreen` whose value is not a
boolean — makes the run panic through an unchecked `unwrap`, rather than
signalling a catchable error. -/
theorem c9_malformed_config_panics (tbl : List (String × TomlValue)) :
    (∀ v, tblGet ("log-endpoint") tbl = some v → tomlAsStr v = none →
        resolveConfig tbl = ConfigResolution.panicked)
    ∧ (∀ v, (tblGet ("log-endpoint") tbl = none
          ∨ ∃ s, tblGet ("log-endpoint") tbl = some (TomlValue.vstr s)) →
        tblGet ("fullscreen") tbl = some v → tomlAsBool v = none →
        resolveConfig tbl = ConfigResolution.panicked) := by
  constructor
  · intro v hv hs
    simp only [resolveConfig, hv, hs]
  · intro v hle hv hb
    rcases hle with hnone | ⟨s, hsome⟩
    · simp only [resolveConfig, hnone, resolveFullscreen, hv, hb]
    · simp only [resolveConfig, hsome, tomlAsStr, resolveFullscreen, hv, hb]

/-- C9 witness: both malformed shapes panic on concrete tables. -/
theorem c9_witness :
    resolveConfig [("log-endpoint", TomlValue.vint 3)] = ConfigResolution.panicked
      ∧ resolveConfig [("fullscreen", TomlValue.vstr ("yes"))] = ConfigResolution.panicked :=
  ⟨(c9_malformed_config_panics [("log-endpoint", TomlValue.vint 3)]).1
      (TomlValue.vint 3) rfl rfl,
    (c9_malformed_config_panics [("fullscreen", TomlValue.vstr ("yes"))]).2
      (TomlValue.vstr ("yes")) (Or.inl rfl) rfl rfl⟩

/-! ## C10: the quiz-name derivation -/

/-- C10 counterexample: the matcher accepts the argument `..`, but a path of
`..` has no file stem, so `process_quiz` panics at `file_stem().unwrap()`
before ever attempting the file read. -/
theorem c10_dotdot_argument_cex :
    quizRegexCaptures ("\x7b\x7b#quiz ..\x7d\x7d") = some ("..")
      ∧ fileStem ("..") = none
      ∧ processQuiz (fun _ => none) (fun _ => none) ⟨none, none⟩ ("dir") ("..")
          = Except.error ProcError.panicked := by
  refine ⟨by decide, by decide, rfl⟩

/-- C10 (amended): for every matcher-accepted argument whose path has a final
normal component (a present file name), the quiz-name derivation succeeds and
`process_quiz` never panics. -/
theorem c10_stem_exists_no_panic (s a : String)
    (_hcap : quizRegexCaptures s = some a) (hname : (fileName a).isSome = true) :
    (fileStem a).isSome = true
      ∧ ∀ (cfg : QuizConfig) (fsys : String → Option String)
          (parseToml : String → Option TomlValue) (dir : String),
          processQuiz fsys parseToml cfg dir a ≠ Except.error ProcError.panicked := by
  have hstem : (fileStem a).isSome = true := by
    rcases h : fileName a with _ | n
    · rw [h] at hname
      simp at hname
    · rw [fileStem, h]
      rfl
  refine ⟨hstem, ?_⟩
  intro cfg fsys parseToml dir h
  rcases hfs : fileStem a with _ | stem
  · rw [hfs] at hstem
    simp at hstem
  · simp only [processQuiz, hfs] at h
    rcases hr : fsys (joinPath dir a) with _ | c
    · simp [hr] at h
    · rcases hp : parseToml c with _ | v
      · simp [hr, hp] at h
      · simp [hr, hp] at h

/-- C10 witness: a concrete accepted argument with a normal final component
never panics. -/
theorem c10_witness :
    (fileStem ("q.toml")).isSome = true
      ∧ processQuiz (fun _ => none) (fun _ => none) ⟨none, none⟩ ("d") ("q.toml")
          ≠ Except.error ProcError.panicked := by
  have h := c10_stem_exists_no_panic ("\x7b\x7b#quiz q.toml\x7d\x7d") ("q.toml")
    (by decide) (by decide)
  exact ⟨h.1, h.2 ⟨none, none⟩ (fun _ => none) (fun _ => none) ("d")⟩

/-! ## The event rewrite: pass-through and error propagation -/

/-- A non-matching event is returned unchanged by the per-event rewrite. -/
theorem processEventStep_nonmatch (pq : String → Except ProcError String) (e : Event)
    (h : eventMatches e = false) : processEventStep pq e = .ok e := by
  cases e with
  | text t =>
    have hnone : quizRegexCaptures t = none := by
      rcases hq : quizRegexCaptures t with _ | q
      · rfl
      · simp only [eventMatches, hq, Option.isSome_some] at h
        exact absurd h (by simp)
    simp [processEventStep, hnone]
  | html s => rfl
  | other n => rfl

/-- With no matching event in the stream, the rewrite is the identity. -/
theorem processEvents_passthrough (pq : String → Except ProcError String) (es : List Event)
    (h : ∀ e ∈ es, eventMatches e = false) : processEvents pq es = .ok es := by
  induction es with
  | nil => rfl
  | cons e es ih =>
    have h1 := processEventStep_nonmatch pq e (h e (by simp))
    simp [processEvents, h1, ih (fun x hx => h x (by simp [hx]))]

/-- The first matching event whose expansion fails aborts the whole stream
rewrite with that error. -/
theorem processEvents_first_error (pq : String → Except ProcError String)
    (pre post : List Event) (t p : String)
    (hpre : ∀ e ∈ pre, eventMatches e = false)
    (hcap : quizRegexCaptures t = some p) (err : ProcError)
    (herr : pq p = .error err) :
    processEvents pq (pre ++ Event.text t :: post) = .error err := by
  induction pre with
  | nil => simp only [List.nil_append, processEvents, processEventStep, hcap, herr]
  | cons e es ih =>
    have h1 := processEventStep_nonmatch pq e (hpre e (by simp))
    have h2 := ih (fun x hx => hpre x (by simp [hx]))
    simp only [List.cons_append, processEvents, h1, List.append_eq, h2]

/-! ## C4: non-matching tokens pass through in position -/

/-- C4: whenever the stream rewrite succeeds, it relates input and output
position by position (same length, same order), and every token that is not a
matching text token is reproduced unchanged at its original position. -/
theorem c4_nonmatching_tokens_unchanged (pq : String → Except ProcError String)
    (es out : List Event) (h : processEvents pq es = .ok out) :
    List.Forall₂ (fun e o => eventMatches e = false → o = e) es out := by
  induction es generalizing out with
  | nil =>
    simp only [processEvents] at h
    cases h
    exact List.Forall₂.nil
  | cons e es ih =>
    simp only [processEvents] at h
    rcases hstep : processEventStep pq e with err | e2 <;> rw [hstep] at h
    · simp at h
    · rcases hrest : processEvents pq es with err2 | es2 <;> rw [hrest] at h
      · simp at h
      · cases h
        constructor
        · intro hm
          have hid := processEventStep_nonmatch pq e hm
          have := hid.symm.trans hstep
          exact (Except.ok.inj this).symm
        · exact ih es2 hrest

/-- C4 witness: a stream of one non-matching text token and one non-text
token rewrites to itself. -/
theorem c4_witness :
    List.Forall₂ (fun e o => eventMatches e = false → o = e)
      [Event.text ("hello"), Event.other 0] [Event.text ("hello"), Event.other 0] :=
  c4_nonmatching_tokens_unchanged (fun _ => Except.error ProcError.formatError)
    [Event.text ("hello"), Event.other 0] [Event.text ("hello"), Event.other 0] rfl

/-! ## C5: loader failures abort the chapter rewrite -/

/-- C5: when the first matched directive's file is unreadable the chapter
rewrite aborts with `IoError` naming the resolved path; when it reads but does
not parse as TOML it aborts with `FormatError`; in both cases the chapter's
content is returned unchanged (no partial output). -/
theorem c5_loader_errors_abort (cfg : QuizConfig) (fsys : String → Option String)
    (parseToml : String → Option TomlValue) (parseMd : String → List Event)
    (render : List Event → String) (dir : String) (ch : Chapter)
    (pre post : List Event) (t p : String)
    (hsplit : parseMd ch.content = pre ++ Event.text t :: post)
    (hpre : ∀ e ∈ pre, eventMatches e = false)
    (hcap : quizRegexCaptures t = some p)
    (hstem : (fileStem p).isSome = true) :
    (fsys (joinPath dir p) = none →
        processChapterApply cfg fsys parseToml parseMd render dir ch
          = (ch, some (ProcError.ioError (joinPath dir p))))
    ∧ (∀ c, fsys (joinPath dir p) = some c → parseToml c = none →
        processChapterApply cfg fsys parseToml parseMd render dir ch
          = (ch, some ProcError.formatError)) := by
  rcases hs : fileStem p with _ | stem
  · rw [hs] at hstem
    exact absurd hstem (by simp)
  constructor
  · intro hio
    have hpq : processQuiz fsys parseToml cfg dir p
        = .error (.ioError (joinPath dir p)) := by
      simp only [processQuiz, hs, hio]
    have hev := processEvents_first_error (processQuiz fsys parseToml cfg dir)
      pre post t p hpre hcap _ hpq
    simp only [processChapterApply, processContent, hsplit, hev]
  · intro c hrd hpt
    have hpq : processQuiz fsys parseToml cfg dir p = .error .formatError := by
      simp only [processQuiz, hs, hrd, hpt]
    have hev := processEvents_first_error (processQuiz fsys parseToml cfg dir)
      pre post t p hpre hcap _ hpq
    simp only [processChapterApply, processContent, hsplit, hev]

/-- C5 witness: a missing file aborts with `IoError` on the resolved path,
and an unparsable file aborts with `FormatError`; the chapter is unchanged. -/
theorem c5_witness :
    processChapterApply ⟨none, none⟩ (fun _ => none) (fun _ => none)
        (fun _ => [Event.text ("\x7b\x7b#quiz missing.toml\x7d\x7d")]) (fun _ => "")
        ("dir") ⟨("src/ch1.md"), ("body")⟩
      = (⟨("src/ch1.md"), ("body")⟩,
          some (ProcError.ioError (joinPath ("dir") ("missing.toml"))))
    ∧ processChapterApply ⟨none, none⟩ (fun _ => some ("not toml")) (fun _ => none)
        (fun _ => [Event.text ("\x7b\x7b#quiz missing.toml\x7d\x7d")]) (fun _ => "")
        ("dir") ⟨("src/ch1.md"), ("body")⟩
      = (⟨("src/ch1.md"), ("body")⟩, some ProcError.formatError) :=
  ⟨(c5_loader_errors_abort ⟨none, none⟩ (fun _ => none) (fun _ => none)
      (fun _ => [Event.text ("\x7b\x7b#quiz missing.toml\x7d\x7d")]) (fun _ => "")
      ("dir") ⟨("src/ch1.md"), ("body")⟩ [] [] ("\x7b\x7b#quiz missing.toml\x7d\x7d")
      ("missing.toml") rfl (by simp) (by decide) (by decide)).1 rfl,
    (c5_loader_errors_abort ⟨none, none⟩ (fun _ => some ("not toml")) (fun _ => none)
      (fun _ => [Event.text ("\x7b\x7b#quiz missing.toml\x7d\x7d")]) (fun _ => "")
      ("dir") ⟨("src/ch1.md"), ("body")⟩ [] [] ("\x7b\x7b#quiz missing.toml\x7d\x7d")
      ("missing.toml") rfl (by simp) (by decide) (by decide)).2 ("not toml") rfl rfl⟩

/-! ## C8: rewriting a directive-free chapter is idempotent -/

/-- C8 (spec-modelled serializer): with the markdown codec satisfying the
specification's normalization-stability law (re-parsing and re-rendering a
rendered stream changes nothing), rewriting a chapter with no matching
directive tokens succeeds, replaces the content by its parse-render
normalization, and doing it again is a no-op. -/
theorem c8_no_directive_idempotent (cfg : QuizConfig) (fsys : String → Option String)
    (parseToml : String → Option TomlValue) (parseMd : String → List Event)
    (render : List Event → String) (dir : String) (ch : Chapter)
    (hnorm : ∀ evs, render (parseMd (render evs)) = render evs)
    (h1 : ∀ e ∈ parseMd ch.content, eventMatches e = false)
    (h2 : ∀ e ∈ parseMd (render (parseMd ch.content)), eventMatches e = false) :
    processChapterApply cfg fsys parseToml parseMd render dir ch
        = ({ ch with content := render (parseMd ch.content) }, none)
      ∧ processChapterApply cfg fsys parseToml parseMd render dir
            { ch with content := render (parseMd ch.content) }
          = ({ ch with content := render (parseMd ch.content) }, none) := by
  have hp1 := processEvents_passthrough (processQuiz fsys parseToml cfg dir) _ h1
  have hp2 := processEvents_passthrough (processQuiz fsys parseToml cfg dir) _ h2
  constructor
  · simp only [processChapterApply, processContent, hp1]
  · simp only [processChapterApply, processContent, hp2]
    rw [hnorm (parseMd ch.content)]

/-- C8 witness: a concrete normalization-stable codec and a directive-free
chapter on which both applications agree. -/
theorem c8_witness :
    processChapterApply ⟨none, none⟩ (fun _ => none) (fun _ => none)
        (fun s => [Event.text s])
        (fun evs => match evs with | [Event.text s] => s | _ => "") ("d") ⟨("p"), ("hi")⟩
      = ({ path := ("p"), content := ("hi") }, none)
    ∧ processChapterApply ⟨none, none⟩ (fun _ => none) (fun _ => none)
        (fun s => [Event.text s])
        (fun evs => match evs with | [Event.text s] => s | _ => "") ("d")
        { path := ("p"), content := ("hi") }
      = ({ path := ("p"), content := ("hi") }, none) :=
  c8_no_directive_idempotent ⟨none, none⟩ (fun _ => none) (fun _ => none)
    (fun s => [Event.text s])
    (fun evs => match evs with | [Event.text s] => s | _ => "") ("d") ⟨("p"), ("hi")⟩
    (fun _ => rfl) (by decide) (by decide)

/-! ## Digit and number lemmas for the JSON codec round trip -/

/-- For a decimal digit `d`, `digitChar d` is a digit character carrying
exactly `d`, and it is `'0'` only for `d = 0`. -/
theorem digitChar_spec : ∀ d, d < 10 →
    ('0' ≤ digitChar d ∧ digitChar d ≤ '9')
      ∧ (digitChar d).toNat - 48 = d
      ∧ (digitChar d = '0' ↔ d = 0) := by decide

/-- A digit character is none of the characters that open another kind of
JSON token or close or separate one. -/
theorem digitChar_not_special : ∀ d, d < 10 →
    digitChar d ∉ ['"', 't', 'f', '[', '\x7b', ']', '\x7d', '-', '+', '.',
      ',', ':', 'e', 'E', '\\'] := by decide

/-- A boundary remainder survives `parseDigits` untouched. -/
theorem parseDigits_stop (cs : List Char) (h : noDigitStart cs) :
    parseDigits cs = ([], cs) := by
  cases cs with
  | nil => rfl
  | cons c t =>
    have hc := h c rfl
    rw [parseDigits, if_neg hc]

/-- `parseDigits` consumes exactly a rendered digit run. -/
theorem parseDigits_run (ds : List Nat) (rest : List Char)
    (hds : ∀ d ∈ ds, d < 10) (hrest : noDigitStart rest) :
    parseDigits (ds.map digitChar ++ rest) = (ds, rest) := by
  induction ds with
  | nil => simpa using parseDigits_stop rest hrest
  | cons d ds ih =>
    have hd := hds d (by simp)
    have hdig := (digitChar_spec d hd).1
    have hval := (digitChar_spec d hd).2.1
    have hih := ih (fun x hx => hds x (by simp [hx]))
    simp only [List.map_cons, List.cons_append, parseDigits, if_pos hdig,
      List.append_eq, hih, hval]

/-- `natDigits` produces decimal digits. -/
theorem natDigits_all_lt (n : Nat) : ∀ d ∈ natDigits n, d < 10 := by
  induction n using Nat.strongRecOn with
  | _ n ih =>
    rw [natDigits.eq_def]
    by_cases h : n < 10
    · simp [h]
    · simp only [if_neg h, List.mem_append, List.mem_singleton]
      intro d hd
      rcases hd with hd | rfl
      · exact ih (n / 10) (by omega) d hd
      · exact Nat.mod_lt _ (by omega)

/-- The digit run of a natural number is nonempty. -/
theorem natDigits_ne_nil (n : Nat) : natDigits n ≠ [] := by
  rw [natDigits.eq_def]
  by_cases h : n < 10 <;> simp [h]

/-- The digit run of a positive number starts with a nonzero digit. -/
theorem natDigits_head_pos (n : Nat) (hn : n ≠ 0) :
    ∃ d ds, natDigits n = d :: ds ∧ d < 10 ∧ d ≠ 0 := by
  induction n using Nat.strongRecOn with
  | _ n ih =>
    rw [natDigits.eq_def]
    by_cases h : n < 10
    · exact ⟨n, [], by simp [h], h, hn⟩
    · obtain ⟨d, ds, hds, hd10, hd0⟩ := ih (n / 10) (by omega) (by omega)
      exact ⟨d, ds ++ [n % 10], by simp [h, hds], hd10, hd0⟩

/-- A leading-zero digit run from `natDigits` is exactly `[0]`. -/
theorem natDigits_zero_head (n : Nat) (ds : List Nat)
    (h : natDigits n = 0 :: ds) : ds = [] := by
  by_cases hn : n = 0
  · subst hn
    have : natDigits 0 = [0] := by rw [natDigits.eq_def]; simp
    rw [this] at h
    exact (List.cons.inj h).2.symm
  · obtain ⟨d, ds2, hds, _, hd0⟩ := natDigits_head_pos n hn
    rw [hds] at h
    exact absurd (List.cons.inj h).1 hd0

/-- `digitsVal` of a run ending in `d` peels the last digit. -/
theorem digitsVal_append (l : List Nat) (d : Nat) :
    digitsVal (l ++ [d]) = digitsVal l * 10 + d := by
  simp [digitsVal, List.foldl_append]

/-- The digit run of `n` denotes `n`. -/
theorem digitsVal_natDigits (n : Nat) : digitsVal (natDigits n) = n := by
  induction n using Nat.strongRecOn with
  | _ n ih =>
    rw [natDigits.eq_def]
    by_cases h : n < 10
    · rw [if_pos h]
      simp [digitsVal]
    · rw [if_neg h, digitsVal_append, ih (n / 10) (by omega)]
      omega

/-- `parseIntPart` consumes exactly a well-formed rendered integer part. -/
theorem parseIntPart_run (ip : List Nat) (rest : List Char)
    (hne : ip ≠ []) (hds : ∀ d ∈ ip, d < 10)
    (hlead : ∀ ds, ip = 0 :: ds → ds = []) (hrest : noDigitStart rest) :
    parseIntPart (ip.map digitChar ++ rest) = some (ip, rest) := by
  cases ip with
  | nil => exact absurd rfl hne
  | cons d ds =>
    by_cases hd0 : d = 0
    · subst hd0
      have hnil : ds = [] := hlead ds rfl
      subst hnil
      simp only [List.map_cons, List.map_nil, List.cons_append, List.nil_append]
      rw [parseIntPart]
      have h0 : digitChar 0 = '0' := rfl
      rw [h0, if_pos rfl]
    · have hd := hds d (by simp)
      have hne0 : digitChar d ≠ '0' := fun hh => hd0 (((digitChar_spec d hd).2.2).mp hh)
      have hpd := parseDigits_run (d :: ds) rest hds hrest
      simp only [List.map_cons, List.cons_append] at hpd ⊢
      rw [parseIntPart, if_neg hne0, hpd]

/-- The empty remainder is a number boundary. -/
theorem numBoundary_nil : numBoundary [] := by
  intro c hc
  simp at hc

/-- A remainder headed by a non-digit, non-`.`, non-`e`/`E` character is a
number boundary. -/
theorem numBoundary_cons (c : Char) (t : List Char)
    (h : ¬('0' ≤ c ∧ c ≤ '9') ∧ c ≠ '.' ∧ c ≠ 'e' ∧ c ≠ 'E') :
    numBoundary (c :: t) := by
  intro c2 hc2
  cases Option.some.inj hc2
  exact h

/-- A number boundary in particular starts with no digit. -/
theorem noDigit_of_numBoundary {cs : List Char} (h : numBoundary cs) :
    noDigitStart cs :=
  fun c hc => (h c hc).1

/-- A remainder headed by `e` starts with no digit. -/
theorem noDigitStart_cons (c : Char) (t : List Char) (h : ¬('0' ≤ c ∧ c ≤ '9')) :
    noDigitStart (c :: t) := by
  intro c2 hc2
  cases Option.some.inj hc2
  exact h

/-- `mkNumber` without fraction and exponent is the integer value. -/
theorem mkNumber_none (neg : Bool) (ip : List Nat) :
    mkNumber neg ip [] none
      = .vint (if neg then -(digitsVal ip : Int) else (digitsVal ip : Int)) := by
  simp [mkNumber]

/-- `mkNumber` with a fraction or an exponent is the float value. -/
theorem mkNumber_float (neg : Bool) (ip fp : List Nat) (ex : Option (Bool × List Nat))
    (h : fp ≠ [] ∨ ex ≠ none) : mkNumber neg ip fp ex = .vfloat neg ip fp ex := by
  rcases h with h | h
  · rw [mkNumber, if_neg]
    intro hc
    exact h (List.isEmpty_iff.mp hc.1)
  · rw [mkNumber, if_neg]
    intro hc
    exact h (Option.isNone_iff_eq_none.mp hc.2)

/-- A number ends cleanly at a boundary remainder. -/
theorem finishNumber_stop (neg : Bool) (ip fp : List Nat) (rest : List Char)
    (hb : numBoundary rest) :
    finishNumber neg ip fp rest = some (mkNumber neg ip fp none, rest) := by
  cases rest with
  | nil => rfl
  | cons c t =>
    obtain ⟨_, _, he, hE⟩ := hb c rfl
    rw [finishNumber, if_neg (fun h => h.elim he hE)]

/-- A rendered exponent is parsed back verbatim. -/
theorem finishNumber_exp (neg : Bool) (ip fp : List Nat) (es : Bool) (eds : List Nat)
    (rest : List Char) (heds : eds ≠ []) (hq : ∀ d ∈ eds, d < 10)
    (hb : numBoundary rest) :
    finishNumber neg ip fp
        ('e' :: ((if es then ['-'] else []) ++ (eds.map digitChar ++ rest)))
      = some (mkNumber neg ip fp (some (es, eds)), rest) := by
  rw [finishNumber, if_pos (Or.inl rfl)]
  cases eds with
  | nil => exact absurd rfl heds
  | cons e et =>
    have hpd := parseDigits_run (e :: et) rest hq (noDigit_of_numBoundary hb)
    simp only [List.map_cons, List.cons_append] at hpd
    have hed := hq e (by simp)
    have hsp := digitChar_not_special e hed
    simp only [List.mem_cons, List.not_mem_nil, not_or] at hsp
    cases es with
    | false =>
      show parseExpDigits neg ip fp (digitChar e :: (List.map digitChar et ++ rest))
        = some (mkNumber neg ip fp (some (false, e :: et)), rest)
      rw [parseExpDigits, if_neg hsp.2.2.2.2.2.2.2.2.1, if_neg hsp.2.2.2.2.2.2.2.1, hpd]
    | true =>
      show parseExpDigits neg ip fp ('-' :: (digitChar e :: (List.map digitChar et ++ rest)))
        = some (mkNumber neg ip fp (some (true, e :: et)), rest)
      rw [parseExpDigits, if_neg (by decide : ¬('-' = '+')), if_pos rfl, hpd]

/-- The magnitude parser on a rendered integer magnitude. -/
theorem parseNumMag_int (neg : Bool) (m : Nat) (rest : List Char)
    (hb : numBoundary rest) :
    parseNumMag neg ((natDigits m).map digitChar ++ rest)
      = some (mkNumber neg (natDigits m) [] none, rest) := by
  have hip := parseIntPart_run (natDigits m) rest (natDigits_ne_nil m)
    (natDigits_all_lt m) (natDigits_zero_head m) (noDigit_of_numBoundary hb)
  cases rest with
  | nil =>
    simp only [parseNumMag, hip]
    exact finishNumber_stop neg (natDigits m) [] [] numBoundary_nil
  | cons c t =>
    obtain ⟨_, hdot, _, _⟩ := hb c rfl
    simp only [parseNumMag, hip, if_neg hdot]
    exact finishNumber_stop neg (natDigits m) [] (c :: t) hb

/-- The magnitude parser on a rendered float magnitude (integer digits,
optional fraction, optional exponent). -/
theorem parseNumMag_float (neg : Bool) (ip fp : List Nat)
    (ex : Option (Bool × List Nat)) (rest : List Char)
    (hipne : ip ≠ []) (hipd : ∀ d ∈ ip, d < 10)
    (hiplead : ∀ ds, ip = 0 :: ds → ds = [])
    (hfpd : ∀ d ∈ fp, d < 10)
    (hfx : fp ≠ [] ∨ ex ≠ none)
    (hex : ∀ es eds, ex = some (es, eds) → eds ≠ [] ∧ ∀ d ∈ eds, d < 10)
    (hb : numBoundary rest) :
    parseNumMag neg (ip.map digitChar ++ (fracChars fp ++ (expChars ex ++ rest)))
      = some (.vfloat neg ip fp ex, rest) := by
  cases fp with
  | nil =>
    cases ex with
    | none =>
      rcases hfx with h | h
      · exact absurd rfl h
      · exact absurd rfl h
    | some p =>
      obtain ⟨es, eds⟩ := p
      obtain ⟨hedsne, hedsd⟩ := hex es eds rfl
      show parseNumMag neg
          (List.map digitChar ip
            ++ ('e' :: (((if es then ['-'] else []) ++ List.map digitChar eds) ++ rest)))
        = some (.vfloat neg ip [] (some (es, eds)), rest)
      rw [List.append_assoc]
      have hip := parseIntPart_run ip
        ('e' :: ((if es then ['-'] else []) ++ (List.map digitChar eds ++ rest)))
        hipne hipd hiplead (noDigitStart_cons _ _ (by decide))
      have hfin := finishNumber_exp neg ip [] es eds rest hedsne hedsd hb
      rw [mkNumber_float neg ip [] (some (es, eds)) (Or.inr (by simp))] at hfin
      simp only [parseNumMag, hip, if_neg (by decide : ¬('e' = '.')), hfin]
  | cons f ft =>
    cases ex with
    | none =>
      show parseNumMag neg
          (List.map digitChar ip ++ ('.' :: (List.map digitChar (f :: ft) ++ ([] ++ rest))))
        = some (.vfloat neg ip (f :: ft) none, rest)
      rw [List.nil_append]
      have hip := parseIntPart_run ip ('.' :: (List.map digitChar (f :: ft) ++ rest))
        hipne hipd hiplead (noDigitStart_cons _ _ (by decide))
      have hpd := parseDigits_run (f :: ft) rest hfpd (noDigit_of_numBoundary hb)
      have hfin := finishNumber_stop neg ip (f :: ft) rest hb
      rw [mkNumber_float neg ip (f :: ft) none (Or.inl (by simp))] at hfin
      simp only [parseNumMag, hip, eq_self_iff_true, if_true, hpd, hfin]
    | some p =>
      obtain ⟨es, eds⟩ := p
      obtain ⟨hedsne, hedsd⟩ := hex es eds rfl
      show parseNumMag neg
          (List.map digitChar ip
            ++ ('.' :: (List.map digitChar (f :: ft)
              ++ ('e' :: (((if es then ['-'] else []) ++ List.map digitChar eds) ++ rest)))))
        = some (.vfloat neg ip (f :: ft) (some (es, eds)), rest)
      rw [List.append_assoc]
      have hip := parseIntPart_run ip
        ('.' :: (List.map digitChar (f :: ft)
          ++ ('e' :: ((if es then ['-'] else []) ++ (List.map digitChar eds ++ rest)))))
        hipne hipd hiplead (noDigitStart_cons _ _ (by decide))
      have hpd := parseDigits_run (f :: ft)
        ('e' :: ((if es then ['-'] else []) ++ (List.map digitChar eds ++ rest)))
        hfpd (noDigitStart_cons _ _ (by decide))
      have hfin := finishNumber_exp neg ip (f :: ft) es eds rest hedsne hedsd hb
      rw [mkNumber_float neg ip (f :: ft) (some (es, eds)) (Or.inl (by simp))] at hfin
      simp only [parseNumMag, hip, eq_self_iff_true, if_true, hpd, hfin]

/-- The rendered form of an `i64` parses back to that integer. -/
theorem parseNumber_int (n : Int) (rest : List Char) (hb : numBoundary rest) :
    parseNumber (intChars n ++ rest) = some (.vint n, rest) := by
  by_cases hn : n < 0
  · rw [intChars, if_pos hn, List.cons_append, parseNumber, if_pos rfl,
      parseNumMag_int true n.natAbs rest hb, mkNumber_none]
    have h2 : -((digitsVal (natDigits n.natAbs) : Nat) : Int) = n := by
      rw [digitsVal_natDigits]
      omega
    simp [h2]
  · rcases hnd : natDigits n.natAbs with _ | ⟨d, ds⟩
    · exact absurd hnd (natDigits_ne_nil _)
    · have hd10 : d < 10 := natDigits_all_lt n.natAbs d (by rw [hnd]; simp)
      have hnsp := digitChar_not_special d hd10
      simp only [List.mem_cons, List.not_mem_nil, not_or] at hnsp
      rw [intChars, if_neg hn, hnd, List.map_cons, List.cons_append, parseNumber,
        if_neg hnsp.2.2.2.2.2.2.2.1, ← List.cons_append, ← List.map_cons, ← hnd,
        parseNumMag_int false n.natAbs rest hb, mkNumber_none]
      have h2 : ((digitsVal (natDigits n.natAbs) : Nat) : Int) = n := by
        rw [digitsVal_natDigits]
        omega
      simp only [if_neg (by simp : ¬(false = true)), h2]

/-- Unpacking the float well-formedness flag into its six facts. -/
theorem wfFloatRep_parts (ip fp : List Nat) (ex : Option (Bool × List Nat))
    (h : wfFloatRep ip fp ex = true) :
    ip ≠ [] ∧ (∀ d ∈ ip, d < 10) ∧ (∀ ds, ip = 0 :: ds → ds = [])
      ∧ (∀ d ∈ fp, d < 10) ∧ (fp ≠ [] ∨ ex ≠ none)
      ∧ (∀ es eds, ex = some (es, eds) → eds ≠ [] ∧ ∀ d ∈ eds, d < 10) := by
  rw [wfFloatRep.eq_def] at h
  simp only [Bool.and_eq_true] at h
  obtain ⟨⟨⟨⟨⟨h1, h2⟩, h3⟩, h4⟩, h5⟩, h6⟩ := h
  refine ⟨?_, ?_, ?_, ?_, ?_, ?_⟩
  · intro hh
    rw [hh] at h1
    exact absurd h1 (by simp)
  · intro d hd
    exact of_decide_eq_true (List.all_eq_true.mp h2 d hd)
  · intro ds hds
    rw [hds] at h3
    exact List.isEmpty_iff.mp h3
  · intro d hd
    exact of_decide_eq_true (List.all_eq_true.mp h4 d hd)
  · by_cases hfp : fp = []
    · right
      rw [hfp] at h5
      simp only [List.isEmpty_nil, Bool.not_true, Bool.false_or] at h5
      exact Option.ne_none_iff_isSome.mpr h5
    · exact Or.inl hfp
  · intro es eds hx
    rw [hx] at h6
    simp only [Bool.and_eq_true] at h6
    obtain ⟨h61, h62⟩ := h6
    refine ⟨?_, ?_⟩
    · intro hh
      rw [hh] at h61
      exact absurd h61 (by simp)
    · intro d hd
      exact of_decide_eq_true (List.all_eq_true.mp h62 d hd)

/-- The rendered form of a well-formed float parses back to that float. -/
theorem parseNumber_float (neg : Bool) (ip fp : List Nat)
    (ex : Option (Bool × List Nat)) (rest : List Char)
    (hwf : wfFloatRep ip fp ex = true) (hb : numBoundary rest) :
    parseNumber (floatChars neg ip fp ex ++ rest) = some (.vfloat neg ip fp ex, rest) := by
  obtain ⟨hipne, hipd, hiplead, hfpd, hfx, hex⟩ := wfFloatRep_parts ip fp ex hwf
  have hmag := parseNumMag_float neg ip fp ex rest hipne hipd hiplead hfpd hfx hex hb
  cases neg with
  | false =>
    obtain ⟨i, it, hip⟩ : ∃ i it, ip = i :: it := by
      rcases ip with _ | ⟨i, it⟩
      · exact absurd rfl hipne
      · exact ⟨i, it, rfl⟩
    subst hip
    have hi10 : i < 10 := hipd i (by simp)
    have hnsp := digitChar_not_special i hi10
    simp only [List.mem_cons, List.not_mem_nil, not_or] at hnsp
    have hshape : floatChars false (i :: it) fp ex ++ rest
        = List.map digitChar (i :: it) ++ (fracChars fp ++ (expChars ex ++ rest)) := by
      simp [floatChars, List.append_assoc]
    rw [hshape, List.map_cons, List.cons_append, parseNumber,
      if_neg hnsp.2.2.2.2.2.2.2.1, ← List.cons_append, ← List.map_cons, hmag]
  | true =>
    have hshape : floatChars true ip fp ex ++ rest
        = '-' :: (List.map digitChar ip ++ (fracChars fp ++ (expChars ex ++ rest))) := by
      simp [floatChars, List.append_assoc]
    rw [hshape, parseNumber, if_pos rfl, hmag]

/-! ## String escape round trip for the JSON codec -/

/-- `parseHex` inverts `hexDigit` on hexadecimal digits. -/
theorem parseHex_hexDigit : ∀ m, m < 16 → parseHex (hexDigit m) = some m := by decide

/-- Parsing one escaped character prepends exactly that character. -/
theorem psb_escape_step (c : Char) (tail : List Char) :
    parseStringBody (jsonEscapeChar c ++ tail)
      = Option.map (fun pr => (c :: pr.1, pr.2)) (parseStringBody tail) := by
  by_cases hq : c = '"'
  · subst hq
    show parseStringBody ('\\' :: ('"' :: tail)) = _
    rcases h : parseStringBody tail with _ | ⟨s, r⟩ <;>
      · rw [parseStringBody.eq_def]
        simp [unescapeChar, h]
  · by_cases hbs : c = '\\'
    · subst hbs
      show parseStringBody ('\\' :: ('\\' :: tail)) = _
      rcases h : parseStringBody tail with _ | ⟨s, r⟩ <;>
        · rw [parseStringBody.eq_def]
          simp [unescapeChar, h]
    · by_cases hge : 32 ≤ c.toNat
      · have hesc : jsonEscapeChar c = [c] := by
          rw [jsonEscapeChar, if_neg hq, if_neg hbs, if_pos hge]
        rw [hesc, List.singleton_append]
        rcases h : parseStringBody tail with _ | ⟨s, r⟩ <;>
          · rw [parseStringBody.eq_def]
            simp [hq, hbs, h, show ¬(c.toNat < 32) from by omega]
      · have hlt : c.toNat < 32 := by omega
        have hstep : ∀ e : Char, unescapeChar e = some c →
            parseStringBody ('\\' :: (e :: tail))
              = Option.map (fun pr => (c :: pr.1, pr.2)) (parseStringBody tail) := by
          intro e he
          have hne : e ≠ 'u' := by
            intro hh
            rw [hh] at he
            simp [unescapeChar] at he
          rcases h : parseStringBody tail with _ | ⟨s, r⟩ <;>
            · rw [parseStringBody.eq_def]
              simp [hne, he, h]
        by_cases h8 : c.toNat = 8
        · have hc : c = '\x08' := by rw [← Char.ofNat_toNat c, h8]
          subst hc
          exact hstep 'b' rfl
        · by_cases h9 : c.toNat = 9
          · have hc : c = '\t' := by rw [← Char.ofNat_toNat c, h9]
            subst hc
            exact hstep 't' rfl
          · by_cases h10 : c.toNat = 10
            · have hc : c = '\n' := by rw [← Char.ofNat_toNat c, h10]
              subst hc
              exact hstep 'n' rfl
            · by_cases h12 : c.toNat = 12
              · have hc : c = '\x0c' := by rw [← Char.ofNat_toNat c, h12]
                subst hc
                exact hstep 'f' rfl
              · by_cases h13 : c.toNat = 13
                · have hc : c = '\r' := by rw [← Char.ofNat_toNat c, h13]
                  subst hc
                  exact hstep 'r' rfl
                · have hesc : jsonEscapeChar c
                      = ['\\', 'u', '0', '0', hexDigit (c.toNat / 16),
                          hexDigit (c.toNat % 16)] := by
                    rw [jsonEscapeChar, if_neg hq, if_neg hbs, if_neg (by omega),
                      if_neg h8, if_neg h9, if_neg h10, if_neg h12, if_neg h13]
                  rw [hesc]
                  have hhi := parseHex_hexDigit (c.toNat / 16) (by omega)
                  have hlo := parseHex_hexDigit (c.toNat % 16) (by omega)
                  have harith : ((0 * 16 + 0) * 16 + c.toNat / 16) * 16 + c.toNat % 16
                      = c.toNat := by omega
                  show parseStringBody ('\\' :: ('u' :: ('0' :: ('0'
                    :: (hexDigit (c.toNat / 16) :: (hexDigit (c.toNat % 16) :: tail))))))
                    = _
                  rcases h : parseStringBody tail with _ | ⟨s, r⟩ <;>
                    · rw [parseStringBody.eq_def]
                      simp only [if_neg (by decide : ¬('\\' = '"')), if_pos rfl]
                      simp only [show parseHex '0' = some 0 from rfl, hhi, hlo, harith]
                      rw [if_pos (Or.inl (by omega)), Char.ofNat_toNat]
                      simp [h]

/-- Parsing a rendered string body recovers the original characters and stops
at the closing quote. -/
theorem psb_run (l : List Char) (rest : List Char) :
    parseStringBody (l.flatMap jsonEscapeChar ++ ('"' :: rest)) = some (l, rest) := by
  induction l with
  | nil =>
    rw [List.flatMap_nil, List.nil_append, parseStringBody.eq_def]
    simp
  | cons c cs ih =>
    rw [List.flatMap_cons, List.append_assoc, psb_escape_step, ih]
    rfl

/-! ## One-step unfolding of the value parser -/

/-- The string branch of the value parser. -/
theorem pv_str (f : Nat) (r : List Char) :
    parseValue (f + 1) ('"' :: r)
      = (match parseStringBody r with
         | some (s, r2) => some (.vstr (String.mk s), r2)
         | none => none) := rfl

/-- The `true` branch of the value parser. -/
theorem pv_true (f : Nat) (r : List Char) :
    parseValue (f + 1) ('t' :: r)
      = (if r.take 3 = ['r', 'u', 'e'] then some (.vbool true, r.drop 3) else none) := rfl

/-- The `false` branch of the value parser. -/
theorem pv_false (f : Nat) (r : List Char) :
    parseValue (f + 1) ('f' :: r)
      = (if r.take 4 = ['a', 'l', 's', 'e'] then some (.vbool false, r.drop 4) else none) := rfl

/-- The empty-array branch of the value parser. -/
theorem pv_arr_empty (f : Nat) (r : List Char) :
    parseValue (f + 1) ('[' :: (']' :: r)) = some (.varr [], r) := rfl

/-- The nonempty-array branch of the value parser. -/
theorem pv_arr_cons (f : Nat) (c : Char) (t : List Char) (hc : c ≠ ']') :
    parseValue (f + 1) ('[' :: (c :: t))
      = (match parseArrItems f (c :: t) with
         | some (xs, r) => some (.varr xs, r)
         | none => none) := by
  rw [show parseValue (f + 1) ('[' :: (c :: t))
      = (if c = ']' then some (.varr [], t)
         else
           match parseArrItems f (c :: t) with
           | some (xs, r) => some (.varr xs, r)
           | none => none) from rfl, if_neg hc]

/-- The empty-object branch of the value parser. -/
theorem pv_obj_empty (f : Nat) (r : List Char) :
    parseValue (f + 1) ('\x7b' :: ('\x7d' :: r)) = some (.vtable [], r) := rfl

/-- The nonempty-object branch of the value parser. -/
theorem pv_obj_cons (f : Nat) (c : Char) (t : List Char) (hc : c ≠ '\x7d') :
    parseValue (f + 1) ('\x7b' :: (c :: t))
      = (match parseObjItems f (c :: t) with
         | some (kvs, r) => some (.vtable kvs, r)
         | none => none) := by
  rw [show parseValue (f + 1) ('\x7b' :: (c :: t))
      = (if c = '\x7d' then some (.vtable [], t)
         else
           match parseObjItems f (c :: t) with
           | some (kvs, r) => some (.vtable kvs, r)
           | none => none) from rfl, if_neg hc]

/-- Inputs headed by none of the five structural openers fall to the number
parser. -/
theorem pv_number (f : Nat) (c : Char) (t : List Char)
    (h1 : c ≠ '"') (h2 : c ≠ 't') (h3 : c ≠ 'f') (h4 : c ≠ '[') (h5 : c ≠ '\x7b') :
    parseValue (f + 1) (c :: t) = parseNumber (c :: t) := by
  rw [show parseValue (f + 1) (c :: t)
      = (if c = '"' then
          (match parseStringBody t with
           | some (s, r2) => some (TomlValue.vstr (String.mk s), r2)
           | none => none)
        else if c = 't' then
          (if t.take 3 = ['r', 'u', 'e'] then some (.vbool true, t.drop 3) else none)
        else if c = 'f' then
          (if t.take 4 = ['a', 'l', 's', 'e'] then some (.vbool false, t.drop 4) else none)
        else if c = '[' then
          (match t with
           | [] => none
           | c2 :: r2 =>
             if c2 = ']' then some (.varr [], r2)
             else
               match parseArrItems f (c2 :: r2) with
               | some (xs, r) => some (.varr xs, r)
               | none => none)
        else if c = '\x7b' then
          (match t with
           | [] => none
           | c2 :: r2 =>
             if c2 = '\x7d' then some (.vtable [], r2)
             else
               match parseObjItems f (c2 :: r2) with
               | some (kvs, r) => some (.vtable kvs, r)
               | none => none)
        else parseNumber (c :: t)) from rfl,
    if_neg h1, if_neg h2, if_neg h3, if_neg h4, if_neg h5]

/-- One-step unfolding of the array-items parser at positive fuel. -/
theorem pai_step (f : Nat) (cs : List Char) :
    parseArrItems (f + 1) cs
      = (match parseValue f cs with
         | none => none
         | some (v, r) =>
           match r with
           | ',' :: r2 =>
             (match parseArrItems f r2 with
              | some (vs, r3) => some (v :: vs, r3)
              | none => none)
           | ']' :: r2 => some ([v], r2)
           | _ => none) := rfl

/-- One-step unfolding of the object-members parser at positive fuel. -/
theorem poi_step (f : Nat) (cs : List Char) :
    parseObjItems (f + 1) cs
      = (match cs with
         | '"' :: r0 =>
           (match parseStringBody r0 with
            | none => none
            | some (k, r1) =>
              match r1 with
              | ':' :: r2 =>
                (match parseValue f r2 with
                 | none => none
                 | some (v, r3) =>
                   match r3 with
                   | ',' :: r4 =>
                     (match parseObjItems f r4 with
                      | some (kvs, r5) => some ((String.mk k, v) :: kvs, r5)
                      | none => none)
                   | '\x7d' :: r4 => some ([(String.mk k, v)], r4)
                   | _ => none)
              | _ => none)
         | _ => none) := rfl

/-! ## Head characters of rendered values -/

/-- A rendered integer starts with `-` or a digit — in either case none of
the structural JSON characters. -/
theorem intChars_head (n : Int) :
    ∃ c t, intChars n = c :: t
      ∧ c ≠ '"' ∧ c ≠ 't' ∧ c ≠ 'f' ∧ c ≠ '[' ∧ c ≠ '\x7b' ∧ c ≠ ']' ∧ c ≠ '\x7d' := by
  by_cases hn : n < 0
  · exact ⟨'-', _, by rw [intChars, if_pos hn], by decide, by decide, by decide,
      by decide, by decide, by decide, by decide⟩
  · rcases hnd : natDigits n.natAbs with _ | ⟨d, ds⟩
    · exact absurd hnd (natDigits_ne_nil _)
    · have hd10 : d < 10 := natDigits_all_lt n.natAbs d (by rw [hnd]; simp)
      have hsp := digitChar_not_special d hd10
      simp only [List.mem_cons, List.not_mem_nil, not_or] at hsp
      refine ⟨digitChar d, (ds.map digitChar), ?_, hsp.1, hsp.2.1, hsp.2.2.1,
        hsp.2.2.2.1, hsp.2.2.2.2.1, hsp.2.2.2.2.2.1, hsp.2.2.2.2.2.2.1⟩
      rw [intChars, if_neg hn, hnd, List.map_cons]

/-- A rendered float starts with `-` or a digit. -/
theorem floatChars_head (neg : Bool) (ip fp : List Nat) (ex : Option (Bool × List Nat))
    (hipne : ip ≠ []) (hipd : ∀ d ∈ ip, d < 10) :
    ∃ c t, floatChars neg ip fp ex = c :: t
      ∧ c ≠ '"' ∧ c ≠ 't' ∧ c ≠ 'f' ∧ c ≠ '[' ∧ c ≠ '\x7b' ∧ c ≠ ']' ∧ c ≠ '\x7d' := by
  cases neg with
  | true =>
    exact ⟨'-', List.map digitChar ip ++ (fracChars fp ++ expChars ex),
      by simp [floatChars, List.append_assoc], by decide, by decide, by decide,
      by decide, by decide, by decide, by decide⟩
  | false =>
    rcases hip : ip with _ | ⟨i, it⟩
    · exact absurd hip hipne
    · have hi10 : i < 10 := hipd i (by rw [hip]; simp)
      have hsp := digitChar_not_special i hi10
      simp only [List.mem_cons, List.not_mem_nil, not_or] at hsp
      refine ⟨digitChar i, List.map digitChar it ++ (fracChars fp ++ expChars ex), ?_,
        hsp.1, hsp.2.1, hsp.2.2.1, hsp.2.2.2.1, hsp.2.2.2.2.1, hsp.2.2.2.2.2.1,
        hsp.2.2.2.2.2.2.1⟩
      simp [floatChars, List.append_assoc]

/-- Every well-formed rendered value starts with a character that closes
neither an array nor an object. -/
theorem encHead (v : TomlValue) (hwf : wfValue v = true) :
    ∃ c t, jsonEncodeL v = c :: t ∧ c ≠ ']' ∧ c ≠ '\x7d' := by
  cases v with
  | vstr s => exact ⟨'"', _, rfl, by decide, by decide⟩
  | vint n =>
    obtain ⟨c, t, hct, _, _, _, _, _, h6, h7⟩ := intChars_head n
    exact ⟨c, t, hct, h6, h7⟩
  | vfloat neg ip fp ex =>
    have hwf2 : wfFloatRep ip fp ex = true := hwf
    obtain ⟨hipne, hipd, _, _, _, _⟩ := wfFloatRep_parts ip fp ex hwf2
    obtain ⟨c, t, hct, _, _, _, _, _, h6, h7⟩ := floatChars_head neg ip fp ex hipne hipd
    exact ⟨c, t, hct, h6, h7⟩
  | vbool b =>
    cases b with
    | true => exact ⟨'t', _, rfl, by decide, by decide⟩
    | false => exact ⟨'f', _, rfl, by decide, by decide⟩
  | varr xs =>
    cases xs with
    | nil => exact ⟨'[', _, rfl, by decide, by decide⟩
    | cons x xs => exact ⟨'[', _, rfl, by decide, by decide⟩
  | vtable kvs =>
    cases kvs with
    | nil => exact ⟨'\x7b', _, rfl, by decide, by decide⟩
    | cons kv kvs => exact ⟨'\x7b', _, rfl, by decide, by decide⟩

/-- A well-formed rendered value is nonempty. -/
theorem encLen_pos (v : TomlValue) (hwf : wfValue v = true) :
    0 < (jsonEncodeL v).length := by
  obtain ⟨c, t, hct, _, _⟩ := encHead v hwf
  rw [hct]
  simp

/-- Splitting a boolean conjunction that evaluates to true. -/
theorem bool_and_split {a b : Bool} (h : (a && b) = true) : a = true ∧ b = true := by
  constructor
  · exact Bool.and_elim_left h
  · exact Bool.and_elim_right h

/-! ## The codec round trip -/

mutual

/-- Parsing a rendered well-formed value (at sufficient fuel, before a
non-number-extending remainder) recovers exactly that value. -/
theorem rt_value : ∀ (v : TomlValue) (fuel : Nat) (rest : List Char),
    wfValue v = true → (jsonEncodeL v).length < fuel → numBoundary rest →
    parseValue fuel (jsonEncodeL v ++ rest) = some (v, rest)
  | .vstr s, fuel, rest, _, hf, _ => by
    cases fuel with
    | zero => exact absurd hf (by omega)
    | succ f =>
      have hsh : jsonEncodeL (.vstr s) ++ rest
          = '"' :: (s.data.flatMap jsonEscapeChar ++ ('"' :: rest)) := by
        show strChars s ++ rest = _
        simp [strChars, List.append_assoc]
      rw [hsh, pv_str, psb_run]
  | .vint n, fuel, rest, _, hf, hb => by
    cases fuel with
    | zero => exact absurd hf (by omega)
    | succ f =>
      obtain ⟨c, t, hct, h1, h2, h3, h4, h5, _, _⟩ := intChars_head n
      have hsh : jsonEncodeL (.vint n) ++ rest = c :: (t ++ rest) := by
        show intChars n ++ rest = c :: (t ++ rest)
        rw [hct, List.cons_append]
      rw [hsh, pv_number f c _ h1 h2 h3 h4 h5, ← List.cons_append, ← hct]
      exact parseNumber_int n rest hb
  | .vfloat neg ip fp ex, fuel, rest, hwf, hf, hb => by
    cases fuel with
    | zero => exact absurd hf (by omega)
    | succ f =>
      have hwf2 : wfFloatRep ip fp ex = true := hwf
      obtain ⟨hipne, hipd, _, _, _, _⟩ := wfFloatRep_parts ip fp ex hwf2
      obtain ⟨c, t, hct, h1, h2, h3, h4, h5, _, _⟩ :=
        floatChars_head neg ip fp ex hipne hipd
      have hsh : jsonEncodeL (.vfloat neg ip fp ex) ++ rest = c :: (t ++ rest) := by
        show floatChars neg ip fp ex ++ rest = c :: (t ++ rest)
        rw [hct, List.cons_append]
      rw [hsh, pv_number f c _ h1 h2 h3 h4 h5, ← List.cons_append, ← hct]
      exact parseNumber_float neg ip fp ex rest hwf2 hb
  | .vbool true, fuel, rest, _, hf, _ => by
    cases fuel with
    | zero => exact absurd hf (by omega)
    | succ f => rfl
  | .vbool false, fuel, rest, _, hf, _ => by
    cases fuel with
    | zero => exact absurd hf (by omega)
    | succ f => rfl
  | .varr [], fuel, rest, _, hf, _ => by
    cases fuel with
    | zero => exact absurd hf (by omega)
    | succ f => rfl
  | .varr (x :: xs), fuel, rest, hwf, hf, _ => by
    cases fuel with
    | zero => exact absurd hf (by omega)
    | succ f =>
      have hx : wfValue x = true := (bool_and_split hwf).1
      have hxs : wfItems xs = true := (bool_and_split hwf).2
      obtain ⟨c, t, hct, hc1, _⟩ := encHead x hx
      have hlen : (jsonEncodeL x ++ encMoreItems xs).length < f := by
        have hEq : (jsonEncodeL (.varr (x :: xs))).length
            = (jsonEncodeL x ++ encMoreItems xs).length + 1 := by
          show ('[' :: (jsonEncodeL x ++ encMoreItems xs)).length = _
          simp
        omega
      have key := rt_items x xs f rest hx hxs hlen
      have hsh : jsonEncodeL (.varr (x :: xs)) ++ rest
          = '[' :: (c :: (t ++ encMoreItems xs ++ rest)) := by
        show ('[' :: (jsonEncodeL x ++ encMoreItems xs)) ++ rest = _
        rw [hct]
        simp [List.append_assoc]
      rw [hsh, pv_arr_cons f c _ hc1]
      have hfold : c :: (t ++ encMoreItems xs ++ rest)
          = (jsonEncodeL x ++ encMoreItems xs) ++ rest := by
        rw [hct]
        simp [List.append_assoc]
      rw [hfold, key]
  | .vtable [], fuel, rest, _, hf, _ => by
    cases fuel with
    | zero => exact absurd hf (by omega)
    | succ f => rfl
  | .vtable ((k, v) :: kvs), fuel, rest, hwf, hf, _ => by
    cases fuel with
    | zero => exact absurd hf (by omega)
    | succ f =>
      have hkv : wfKVs ((k, v) :: kvs) = true := (bool_and_split hwf).2
      have hv : wfValue v = true := (bool_and_split hkv).1
      have hkvs : wfKVs kvs = true := (bool_and_split hkv).2
      have hlen : (encKV (k, v) ++ encMoreKVs kvs).length < f := by
        have hEq : (jsonEncodeL (.vtable ((k, v) :: kvs))).length
            = (encKV (k, v) ++ encMoreKVs kvs).length + 1 := by
          show ('\x7b' :: (encKV (k, v) ++ encMoreKVs kvs)).length = _
          simp
        omega
      have key := rt_members k v kvs f rest hv hkvs hlen
      have hsh : jsonEncodeL (.vtable ((k, v) :: kvs)) ++ rest
          = '\x7b' :: ('"' :: (k.data.flatMap jsonEscapeChar
              ++ ('"' :: (':' :: (jsonEncodeL v ++ (encMoreKVs kvs ++ rest)))))) := by
        show ('\x7b' :: (encKV (k, v) ++ encMoreKVs kvs)) ++ rest = _
        simp [encKV, strChars, List.append_assoc]
      rw [hsh, pv_obj_cons f '"' _ (by decide)]
      have hfold : '"' :: (k.data.flatMap jsonEscapeChar
            ++ ('"' :: (':' :: (jsonEncodeL v ++ (encMoreKVs kvs ++ rest)))))
          = (encKV (k, v) ++ encMoreKVs kvs) ++ rest := by
        simp [encKV, strChars, List.append_assoc]
      rw [hfold, key]
termination_by v _ _ _ _ _ => sizeOf v

/-- Parsing the rendered elements of a nonempty array (followed by `]`)
recovers exactly those elements. -/
theorem rt_items : ∀ (x : TomlValue) (xs : List TomlValue) (fuel : Nat) (rest : List Char),
    wfValue x = true → wfItems xs = true →
    (jsonEncodeL x ++ encMoreItems xs).length < fuel →
    parseArrItems fuel ((jsonEncodeL x ++ encMoreItems xs) ++ rest) = some (x :: xs, rest)
  | x, [], fuel, rest, hx, _, hf => by
    cases fuel with
    | zero => exact absurd hf (by omega)
    | succ f =>
      have hlenx : (jsonEncodeL x).length < f := by
        have hEq : (jsonEncodeL x ++ encMoreItems []).length
            = (jsonEncodeL x).length + 1 := by
          show (jsonEncodeL x ++ [']']).length = _
          simp
        omega
      have hv := rt_value x f (']' :: rest) hx hlenx (numBoundary_cons _ _ (by decide))
      have hsh : (jsonEncodeL x ++ encMoreItems []) ++ rest
          = jsonEncodeL x ++ (']' :: rest) := by
        show (jsonEncodeL x ++ [']']) ++ rest = _
        simp [List.append_assoc]
      rw [hsh, pai_step, hv]
      rfl
  | x, y :: ys, fuel, rest, hx, hxs, hf => by
    cases fuel with
    | zero => exact absurd hf (by omega)
    | succ f =>
      have hy : wfValue y = true := (bool_and_split hxs).1
      have hys : wfItems ys = true := (bool_and_split hxs).2
      have hEq : (jsonEncodeL x ++ encMoreItems (y :: ys)).length
          = (jsonEncodeL x).length + (1 + (jsonEncodeL y ++ encMoreItems ys).length) := by
        show (jsonEncodeL x ++ (',' :: (jsonEncodeL y ++ encMoreItems ys))).length = _
        simp only [List.length_append, List.length_cons]
        omega
      have hlenx : (jsonEncodeL x).length < f := by omega
      have hleny : (jsonEncodeL y ++ encMoreItems ys).length < f := by omega
      have hv := rt_value x f (',' :: ((jsonEncodeL y ++ encMoreItems ys) ++ rest)) hx hlenx
        (numBoundary_cons _ _ (by decide))
      have key := rt_items y ys f rest hy hys hleny
      have hsh : (jsonEncodeL x ++ encMoreItems (y :: ys)) ++ rest
          = jsonEncodeL x ++ (',' :: ((jsonEncodeL y ++ encMoreItems ys) ++ rest)) := by
        show (jsonEncodeL x ++ (',' :: (jsonEncodeL y ++ encMoreItems ys))) ++ rest = _
        simp [List.append_assoc]
      rw [hsh, pai_step, hv]
      show (match parseArrItems f ((jsonEncodeL y ++ encMoreItems ys) ++ rest) with
            | some (vs, r3) => some (x :: vs, r3)
            | none => none) = some (x :: (y :: ys), rest)
      rw [key]
termination_by x xs _ _ _ _ _ => sizeOf x + sizeOf xs + 1

/-- Parsing the rendered members of a nonempty object (followed by `\x7d`)
recovers exactly those members. -/
theorem rt_members : ∀ (k : String) (v : TomlValue) (kvs : List (String × TomlValue))
    (fuel : Nat) (rest : List Char),
    wfValue v = true → wfKVs kvs = true →
    (encKV (k, v) ++ encMoreKVs kvs).length < fuel →
    parseObjItems fuel ((encKV (k, v) ++ encMoreKVs kvs) ++ rest) = some ((k, v) :: kvs, rest)
  | k, v, [], fuel, rest, hv, _, hf => by
    cases fuel with
    | zero => exact absurd hf (by omega)
    | succ f =>
      have hEq : (encKV (k, v) ++ encMoreKVs []).length
          = (strChars k).length + (1 + (jsonEncodeL v).length) + 1 := by
        show ((strChars k ++ (':' :: jsonEncodeL v)) ++ ['\x7d']).length = _
        simp only [List.length_append, List.length_cons, List.length_nil]
        omega
      have hlenv : (jsonEncodeL v).length < f := by omega
      have hval := rt_value v f ('\x7d' :: rest) hv hlenv (numBoundary_cons _ _ (by decide))
      have hsh : (encKV (k, v) ++ encMoreKVs []) ++ rest
          = '"' :: (k.data.flatMap jsonEscapeChar
              ++ ('"' :: (':' :: (jsonEncodeL v ++ ('\x7d' :: rest))))) := by
        show ((strChars k ++ (':' :: jsonEncodeL v)) ++ ['\x7d']) ++ rest = _
        simp [strChars, List.append_assoc]
      rw [hsh, poi_step]
      show (match parseStringBody (k.data.flatMap jsonEscapeChar
              ++ ('"' :: (':' :: (jsonEncodeL v ++ ('\x7d' :: rest))))) with
            | none => none
            | some (k2, r1) =>
              match r1 with
              | ':' :: r2 =>
                (match parseValue f r2 with
                 | none => none
                 | some (v2, r3) =>
                   match r3 with
                   | ',' :: r4 =>
                     (match parseObjItems f r4 with
                      | some (kvs2, r5) => some ((String.mk k2, v2) :: kvs2, r5)
                      | none => none)
                   | '\x7d' :: r4 => some ([(String.mk k2, v2)], r4)
                   | _ => none)
              | _ => none) = some ([(k, v)], rest)
      rw [psb_run]
      show (match parseValue f (jsonEncodeL v ++ ('\x7d' :: rest)) with
            | none => none
            | some (v2, r3) =>
              match r3 with
              | ',' :: r4 =>
                (match parseObjItems f r4 with
                 | some (kvs2, r5) => some ((String.mk k.data, v2) :: kvs2, r5)
                 | none => none)
              | '\x7d' :: r4 => some ([(String.mk k.data, v2)], r4)
              | _ => none) = some ([(k, v)], rest)
      rw [hval]
      rfl
  | k, v, (k2, v2) :: kvs, fuel, rest, hv, hkvs, hf => by
    cases fuel with
    | zero => exact absurd hf (by omega)
    | succ f =>
      have hv2 : wfValue v2 = true := (bool_and_split hkvs).1
      have hkvs2 : wfKVs kvs = true := (bool_and_split hkvs).2
      have hEq : (encKV (k, v) ++ encMoreKVs ((k2, v2) :: kvs)).length
          = (strChars k).length + (1 + (jsonEncodeL v).length)
            + (1 + (encKV (k2, v2) ++ encMoreKVs kvs).length) := by
        show ((strChars k ++ (':' :: jsonEncodeL v))
            ++ (',' :: (encKV (k2, v2) ++ encMoreKVs kvs))).length = _
        simp only [List.length_append, List.length_cons]
        omega
      have hlenv : (jsonEncodeL v).length < f := by omega
      have hlen2 : (encKV (k2, v2) ++ encMoreKVs kvs).length < f := by omega
      have hval := rt_value v f
        (',' :: ((encKV (k2, v2) ++ encMoreKVs kvs) ++ rest)) hv hlenv
        (numBoundary_cons _ _ (by decide))
      have key := rt_members k2 v2 kvs f rest hv2 hkvs2 hlen2
      have hsh : (encKV (k, v) ++ encMoreKVs ((k2, v2) :: kvs)) ++ rest
          = '"' :: (k.data.flatMap jsonEscapeChar
              ++ ('"' :: (':' :: (jsonEncodeL v
                ++ (',' :: ((encKV (k2, v2) ++ encMoreKVs kvs) ++ rest)))))) := by
        show ((strChars k ++ (':' :: jsonEncodeL v))
            ++ (',' :: (encKV (k2, v2) ++ encMoreKVs kvs))) ++ rest = _
        simp [strChars, List.append_assoc]
      rw [hsh, poi_step]
      show (match parseStringBody (k.data.flatMap jsonEscapeChar
              ++ ('"' :: (':' :: (jsonEncodeL v
                ++ (',' :: ((encKV (k2, v2) ++ encMoreKVs kvs) ++ rest)))))) with
            | none => none
            | some (kk, r1) =>
              match r1 with
              | ':' :: r2 =>
                (match parseValue f r2 with
                 | none => none
                 | some (vv, r3) =>
                   match r3 with
                   | ',' :: r4 =>
                     (match parseObjItems f r4 with
                      | some (kvs2, r5) => some ((String.mk kk, vv) :: kvs2, r5)
                      | none => none)
                   | '\x7d' :: r4 => some ([(String.mk kk, vv)], r4)
                   | _ => none)
              | _ => none) = some ((k, v) :: ((k2, v2) :: kvs), rest)
      rw [psb_run]
      show (match parseValue f (jsonEncodeL v
              ++ (',' :: ((encKV (k2, v2) ++ encMoreKVs kvs) ++ rest))) with
            | none => none
            | some (vv, r3) =>
              match r3 with
              | ',' :: r4 =>
                (match parseObjItems f r4 with
                 | some (kvs2, r5) => some ((String.mk k.data, vv) :: kvs2, r5)
                 | none => none)
              | '\x7d' :: r4 => some ([(String.mk k.data, vv)], r4)
              | _ => none) = some ((k, v) :: ((k2, v2) :: kvs), rest)
      rw [hval]
      show (match parseObjItems f ((encKV (k2, v2) ++ encMoreKVs kvs) ++ rest) with
            | some (kvs2, r5) => some ((String.mk k.data, v) :: kvs2, r5)
            | none => none) = some ((k, v) :: ((k2, v2) :: kvs), rest)
      rw [key]
termination_by k v kvs _ _ _ _ _ => sizeOf v + sizeOf kvs + 1

end

/-- Decoding the encoder's output recovers the value (top level). -/
theorem jsonDecode_encode (v : TomlValue) (h : wfValue v = true) :
    jsonDecode (jsonEncode v) = some v := by
  have hrt := rt_value v ((jsonEncodeL v).length + 1) [] h (by omega) numBoundary_nil
  rw [List.append_nil] at hrt
  show (match parseValue ((jsonEncodeL v).length + 1) (jsonEncodeL v) with
        | some (v2, []) => some v2
        | _ => none) = some v
  rw [hrt]

/-! ## C2: the quiz-questions attribute round-trips -/

/-- C2: for every definition built from the supported value kinds (strings,
integers, decimal floats, booleans, arrays, and tables with distinct keys),
the placeholder carries in quiz-questions the escaped JSON encoding of the
definition, and decoding that attribute (entity decoding followed by the
interchange format's own decoder) yields the original definition exactly. -/
theorem c2_quiz_questions_roundtrip (cfg : QuizConfig) (name : String) (v : TomlValue)
    (h : wfValue v = true) :
    getAttr ("quiz-questions") (quizAttrs cfg name (jsonEncode v))
        = some (htmlEscapeDQ (jsonEncode v))
      ∧ jsonDecode (htmlUnescape (htmlEscapeDQ (jsonEncode v))) = some v := by
  refine ⟨rfl, ?_⟩
  rw [htmlUnescape_escape]
  exact jsonDecode_encode v h

/-- C2 witness: a nested definition exercising every supported value kind
(including a string with a quote, floats with fraction and exponent, empty
containers) round-trips through the quiz-questions attribute. -/
theorem c2_witness :
    getAttr ("quiz-questions")
        (quizAttrs ⟨none, some true⟩ ("geo")
          (jsonEncode (TomlValue.vtable
            [("name", TomlValue.vstr ("Cap\"itals")),
             ("questions", TomlValue.varr
               [TomlValue.vtable
                 [("prompt", TomlValue.vstr ("Capital of France?")),
                  ("answer", TomlValue.vstr ("Paris"))]]),
             ("pi", TomlValue.vfloat false [3] [1, 4] none),
             ("big", TomlValue.vfloat false [1] [] (some (true, [3, 0]))),
             ("count", TomlValue.vint (-2)),
             ("ok", TomlValue.vbool true),
             ("emptyTable", TomlValue.vtable []),
             ("emptyArr", TomlValue.varr [])])))
        = some (htmlEscapeDQ (jsonEncode (TomlValue.vtable
            [("name", TomlValue.vstr ("Cap\"itals")),
             ("questions", TomlValue.varr
               [TomlValue.vtable
                 [("prompt", TomlValue.vstr ("Capital of France?")),
                  ("answer", TomlValue.vstr ("Paris"))]]),
             ("pi", TomlValue.vfloat false [3] [1, 4] none),
             ("big", TomlValue.vfloat false [1] [] (some (true, [3, 0]))),
             ("count", TomlValue.vint (-2)),
             ("ok", TomlValue.vbool true),
             ("emptyTable", TomlValue.vtable []),
             ("emptyArr", TomlValue.varr [])])))
      ∧ jsonDecode (htmlUnescape (htmlEscapeDQ (jsonEncode (TomlValue.vtable
            [("name", TomlValue.vstr ("Cap\"itals")),
             ("questions", TomlValue.varr
               [TomlValue.vtable
                 [("prompt", TomlValue.vstr ("Capital of France?")),
                  ("answer", TomlValue.vstr ("Paris"))]]),
             ("pi", TomlValue.vfloat false [3] [1, 4] none),
             ("big", TomlValue.vfloat false [1] [] (some (true, [3, 0]))),
             ("count", TomlValue.vint (-2)),
             ("ok", TomlValue.vbool true),
             ("emptyTable", TomlValue.vtable []),
             ("emptyArr", TomlValue.varr [])]))))
          = some (TomlValue.vtable
            [("name", TomlValue.vstr ("Cap\"itals")),
             ("questions", TomlValue.varr
               [TomlValue.vtable
                 [("prompt", TomlValue.vstr ("Capital of France?")),
                  ("answer", TomlValue.vstr ("Paris"))]]),
             ("pi", TomlValue.vfloat false [3] [1, 4] none),
             ("big", TomlValue.vfloat false [1] [] (some (true, [3, 0]))),
             ("count", TomlValue.vint (-2)),
             ("ok", TomlValue.vbool true),
             ("emptyTable", TomlValue.vtable []),
             ("emptyArr", TomlValue.varr [])]) :=
  c2_quiz_questions_roundtrip ⟨none, some true⟩ ("geo")
    (TomlValue.vtable
      [("name", TomlValue.vstr ("Cap\"itals")),
       ("questions", TomlValue.varr
         [TomlValue.vtable
           [("prompt", TomlValue.vstr ("Capital of France?")),
            ("answer", TomlValue.vstr ("Paris"))]]),
       ("pi", TomlValue.vfloat false [3] [1, 4] none),
       ("big", TomlValue.vfloat false [1] [] (some (true, [3, 0]))),
       ("count", TomlValue.vint (-2)),
       ("ok", TomlValue.vbool true),
       ("emptyTable", TomlValue.vtable []),
       ("emptyArr", TomlValue.varr [])]) (by rfl)
